import Mathlib

/-!
Verification of the Configuration Revision and Change-Detection Engine of
security_monkey (file security_monkey/datastore.py).

The development shallowly embeds the engine: JSON-like configuration trees,
the canonicalizing serializer used for hashing, the MD5 digest, the ephemeral
path filter, and the datastore operations (item resolution, store, filtered
listing with retry, exception recording) as pure functions over an explicit
database state.
-/

/-- A JSON-compatible configuration tree, as handled by the datastore:
mappings, sequences, strings, integers, booleans and null. -/
inductive Config where
  | str (s : String)
  | num (n : Int)
  | bool (b : Bool)
  | null
  | arr (l : List Config)
  | obj (kvs : List (String × Config))

mutual
/-- Boolean structural equality of configuration trees. -/
def Config.beq : Config → Config → Bool
  | .str a, .str b => a == b
  | .num a, .num b => a == b
  | .bool a, .bool b => a == b
  | .null, .null => true
  | .arr l1, .arr l2 => Config.beqList l1 l2
  | .obj k1, .obj k2 => Config.beqPairs k1 k2
  | _, _ => false

/-- Boolean equality of configuration lists. -/
def Config.beqList : List Config → List Config → Bool
  | [], [] => true
  | a :: l1, b :: l2 => Config.beq a b && Config.beqList l1 l2
  | _, _ => false

/-- Boolean equality of mapping entry lists. -/
def Config.beqPairs : List (String × Config) → List (String × Config) → Bool
  | [], [] => true
  | (k1, v1) :: l1, (k2, v2) :: l2 => k1 == k2 && Config.beq v1 v2 && Config.beqPairs l1 l2
  | _, _ => false
end

mutual
theorem Config.beq_iff : ∀ a b : Config, Config.beq a b = true ↔ a = b
  | .str a, .str b => by simp [Config.beq]
  | .str _, .num _ => by simp [Config.beq]
  | .str _, .bool _ => by simp [Config.beq]
  | .str _, .null => by simp [Config.beq]
  | .str _, .arr _ => by simp [Config.beq]
  | .str _, .obj _ => by simp [Config.beq]
  | .num _, .str _ => by simp [Config.beq]
  | .num a, .num b => by simp [Config.beq]
  | .num _, .bool _ => by simp [Config.beq]
  | .num _, .null => by simp [Config.beq]
  | .num _, .arr _ => by simp [Config.beq]
  | .num _, .obj _ => by simp [Config.beq]
  | .bool _, .str _ => by simp [Config.beq]
  | .bool _, .num _ => by simp [Config.beq]
  | .bool a, .bool b => by simp [Config.beq]
  | .bool _, .null => by simp [Config.beq]
  | .bool _, .arr _ => by simp [Config.beq]
  | .bool _, .obj _ => by simp [Config.beq]
  | .null, .str _ => by simp [Config.beq]
  | .null, .num _ => by simp [Config.beq]
  | .null, .bool _ => by simp [Config.beq]
  | .null, .null => by simp [Config.beq]
  | .null, .arr _ => by simp [Config.beq]
  | .null, .obj _ => by simp [Config.beq]
  | .arr _, .str _ => by simp [Config.beq]
  | .arr _, .num _ => by simp [Config.beq]
  | .arr _, .bool _ => by simp [Config.beq]
  | .arr _, .null => by simp [Config.beq]
  | .arr l1, .arr l2 => by simp [Config.beq, Config.beqList_iff l1 l2]
  | .arr _, .obj _ => by simp [Config.beq]
  | .obj _, .str _ => by simp [Config.beq]
  | .obj _, .num _ => by simp [Config.beq]
  | .obj _, .bool _ => by simp [Config.beq]
  | .obj _, .null => by simp [Config.beq]
  | .obj _, .arr _ => by simp [Config.beq]
  | .obj k1, .obj k2 => by simp [Config.beq, Config.beqPairs_iff k1 k2]

theorem Config.beqList_iff : ∀ l1 l2 : List Config, Config.beqList l1 l2 = true ↔ l1 = l2
  | [], [] => by simp [Config.beqList]
  | [], _ :: _ => by simp [Config.beqList]
  | _ :: _, [] => by simp [Config.beqList]
  | a :: l1, b :: l2 => by
      simp [Config.beqList, Config.beq_iff a b, Config.beqList_iff l1 l2]

theorem Config.beqPairs_iff : ∀ l1 l2 : List (String × Config),
    Config.beqPairs l1 l2 = true ↔ l1 = l2
  | [], [] => by simp [Config.beqPairs]
  | [], _ :: _ => by simp [Config.beqPairs]
  | _ :: _, [] => by simp [Config.beqPairs]
  | (k1, v1) :: l1, (k2, v2) :: l2 => by
      simp [Config.beqPairs, Config.beq_iff v1 v2, Config.beqPairs_iff l1 l2, and_assoc]
end

instance : DecidableEq Config := fun a b =>
  decidable_of_iff (Config.beq a b = true) (Config.beq_iff a b)

/-- Whether a configuration node is a mapping. -/
def Config.isObj : Config → Bool
  | .obj _ => true
  | _ => false

/-- One lowercase hexadecimal digit. -/
def hexDigitChar (n : Nat) : Char :=
  if n < 10 then Char.ofNat (48 + n) else Char.ofNat (87 + n)

/-- Four-digit lowercase hexadecimal rendering, as in a JSON unicode escape. -/
def hex4 (n : Nat) : String :=
  String.mk [hexDigitChar (n / 4096 % 16), hexDigitChar (n / 256 % 16),
             hexDigitChar (n / 16 % 16), hexDigitChar (n % 16)]

/-- Escape of a single character inside a JSON string literal, following
Python json.dumps with its default ensure_ascii behaviour. -/
def escChar (c : Char) : String :=
  let n := c.toNat
  if c = '"' then "\\\""
  else if c = '\\' then "\\\\"
  else if n = 10 then "\\n"
  else if n = 9 then "\\t"
  else if n = 13 then "\\r"
  else if n = 8 then "\\b"
  else if n = 12 then "\\f"
  else if n < 32 || n > 126 then
    if n < 65536 then "\\u" ++ hex4 n
    else "\\u" ++ hex4 (55296 + (n - 65536) / 1024) ++ "\\u" ++ hex4 (56320 + (n - 65536) % 1024)
  else String.singleton c

/-- A JSON string literal for `s`, as produced by Python json.dumps. -/
def jstr (s : String) : String :=
  "\"" ++ String.join (s.data.map escChar) ++ "\""

/-- Lexicographic comparison of character lists by code point, as Python
compares strings. -/
def charsLe : List Char → List Char → Bool
  | [], _ => true
  | _ :: _, [] => false
  | a :: as, b :: bs =>
      if a.toNat < b.toNat then true
      else if b.toNat < a.toNat then false
      else charsLe as bs

/-- Lexicographic string order by code points (Python's string order). -/
def strLe (a b : String) : Bool := charsLe a.data b.data

/-- Key order used by json.dumps with sort_keys set: lexicographic string
order on the keys. -/
def keyLe (p q : String × String) : Prop := strLe p.1 q.1 = true

instance : DecidableRel keyLe := fun p q =>
  inferInstanceAs (Decidable (strLe p.1 q.1 = true))

/-- One serialized mapping entry: quoted key, colon-space, serialized value. -/
def entryStr (p : String × String) : String := jstr p.1 ++ ": " ++ p.2

mutual
/-- Serialization of a configuration exactly as Python
json.dumps(config, sort_keys=True) renders it: mapping keys in sorted order,
", " item separator and ": " key separator. -/
def dumps : Config → String
  | .str s => jstr s
  | .num n => toString n
  | .bool b => if b then "true" else "false"
  | .null => "null"
  | .arr l => "[" ++ String.intercalate ", " (dumpsList l) ++ "]"
  | .obj kvs =>
      "\x7b" ++ String.intercalate ", "
        ((List.insertionSort keyLe (dumpsPairs kvs)).map entryStr) ++ "\x7d"

/-- Serializations of the elements of a sequence, in order. -/
def dumpsList : List Config → List String
  | [] => []
  | c :: cs => dumps c :: dumpsList cs

/-- Keys paired with the serializations of their values, in entry order. -/
def dumpsPairs : List (String × Config) → List (String × String)
  | [] => []
  | (k, v) :: rest => (k, dumps v) :: dumpsPairs rest
end

/-- Whether every element of a sequence is a mapping. -/
def allObj (l : List Config) : Bool := l.all Config.isObj

/-- Order on canonicalized sequence elements: by their sorted-keys
serialization. -/
def dumpsLe (a b : Config) : Prop := strLe (dumps a) (dumps b) = true

instance : DecidableRel dumpsLe := fun a b =>
  inferInstanceAs (Decidable (strLe (dumps a) (dumps b) = true))

mutual
/-- Modelled from the spec: `sub_dict` of security_monkey.common.utils is not
under src/. Per spec section 4.1 (Canonicalizer), it returns an equivalent
tree where every sequence that is itself a sequence of mappings is sorted
into a deterministic order - here, stably by the sorted-keys serialization of
the canonicalized elements - while other sequences retain their order. -/
def sub_dict : Config → Config
  | .obj kvs => .obj (subPairs kvs)
  | .arr l =>
      if allObj l then .arr (List.insertionSort dumpsLe (subList l))
      else .arr (subList l)
  | c => c

/-- Canonicalization of the elements of a sequence. -/
def subList : List Config → List Config
  | [] => []
  | c :: cs => sub_dict c :: subList cs

/-- Canonicalization of the values of a mapping. -/
def subPairs : List (String × Config) → List (String × Config)
  | [] => []
  | (k, v) :: rest => (k, sub_dict v) :: subPairs rest
end

/-! ### MD5, as used by hashlib.md5 -/

/-- The 64 MD5 round constants. -/
def md5K : List Nat :=
  [0xd76aa478, 0xe8c7b756, 0x242070db, 0xc1bdceee,
   0xf57c0faf, 0x4787c62a, 0xa8304613, 0xfd469501,
   0x698098d8, 0x8b44f7af, 0xffff5bb1, 0x895cd7be,
   0x6b901122, 0xfd987193, 0xa679438e, 0x49b40821,
   0xf61e2562, 0xc040b340, 0x265e5a51, 0xe9b6c7aa,
   0xd62f105d, 0x02441453, 0xd8a1e681, 0xe7d3fbc8,
   0x21e1cde6, 0xc33707d6, 0xf4d50d87, 0x455a14ed,
   0xa9e3e905, 0xfcefa3f8, 0x676f02d9, 0x8d2a4c8a,
   0xfffa3942, 0x8771f681, 0x6d9d6122, 0xfde5380c,
   0xa4beea44, 0x4bdecfa9, 0xf6bb4b60, 0xbebfbc70,
   0x289b7ec6, 0xeaa127fa, 0xd4ef3085, 0x04881d05,
   0xd9d4d039, 0xe6db99e5, 0x1fa27cf8, 0xc4ac5665,
   0xf4292244, 0x432aff97, 0xab9423a7, 0xfc93a039,
   0x655b59c3, 0x8f0ccc92, 0xffeff47d, 0x85845dd1,
   0x6fa87e4f, 0xfe2ce6e0, 0xa3014314, 0x4e0811a1,
   0xf7537e82, 0xbd3af235, 0x2ad7d2bb, 0xeb86d391]

/-- The 64 MD5 per-round left-rotation amounts. -/
def md5S : List Nat :=
  [7, 12, 17, 22, 7, 12, 17, 22, 7, 12, 17, 22, 7, 12, 17, 22,
   5, 9, 14, 20, 5, 9, 14, 20, 5, 9, 14, 20, 5, 9, 14, 20,
   4, 11, 16, 23, 4, 11, 16, 23, 4, 11, 16, 23, 4, 11, 16, 23,
   6, 10, 15, 21, 6, 10, 15, 21, 6, 10, 15, 21, 6, 10, 15, 21]

/-- Truncation to a 32-bit word. -/
def w32 (n : Nat) : Nat := n % 4294967296

/-- 32-bit left rotation (for x < 2^32). -/
def rotl32 (x s : Nat) : Nat := w32 (x * 2 ^ s + x / 2 ^ (32 - s))

/-- The MD5 nonlinear function for round index i. -/
def md5F (i b c d : Nat) : Nat :=
  if i < 16 then (b &&& c) ||| ((4294967295 ^^^ b) &&& d)
  else if i < 32 then (d &&& b) ||| ((4294967295 ^^^ d) &&& c)
  else if i < 48 then b ^^^ c ^^^ d
  else c ^^^ (b ||| (4294967295 ^^^ d))

/-- The MD5 message-word index for round index i. -/
def md5G (i : Nat) : Nat :=
  if i < 16 then i
  else if i < 32 then (5 * i + 1) % 16
  else if i < 48 then (3 * i + 5) % 16
  else (7 * i) % 16

/-- `count` little-endian bytes of a natural number. -/
def leBytes (w : Nat) : Nat → List Nat
  | 0 => []
  | k + 1 => (w % 256) :: leBytes (w / 256) k

/-- MD5 message padding: a 0x80 byte, zeros to 56 mod 64, then the bit length
as eight little-endian bytes. -/
def md5Pad (msg : List Nat) : List Nat :=
  let len := msg.length
  let z := (56 + 64 - (len + 1) % 64) % 64
  msg ++ [128] ++ List.replicate z 0 ++ leBytes (8 * len) 8

/-- Grouping of bytes into 32-bit little-endian words. -/
def bytesToWords : List Nat → List Nat
  | b0 :: b1 :: b2 :: b3 :: rest =>
      (b0 + 256 * b1 + 65536 * b2 + 16777216 * b3) :: bytesToWords rest
  | _ => []

/-- Splitting of a byte list into 64-byte blocks. The fuel argument keeps
the recursion structural; it is initialized with the list length, which
bounds the number of blocks. -/
def chunks64Go : Nat → List Nat → List (List Nat)
  | 0, _ => []
  | _, [] => []
  | fuel + 1, x :: rest => (x :: rest).take 64 :: chunks64Go fuel ((x :: rest).drop 64)

/-- Splitting of a byte list into 64-byte blocks. -/
def chunks64 (l : List Nat) : List (List Nat) := chunks64Go l.length l

/-- One MD5 round applied to the running (a, b, c, d) state. -/
def md5Step (m : List Nat) (st : Nat × Nat × Nat × Nat) (i : Nat) :
    Nat × Nat × Nat × Nat :=
  let a := st.1
  let b := st.2.1
  let c := st.2.2.1
  let d := st.2.2.2
  let f := w32 (md5F i b c d + a + md5K.getD i 0 + m.getD (md5G i) 0)
  (d, w32 (b + rotl32 f (md5S.getD i 0)), b, c)

/-- Processing of one 64-byte block. -/
def md5Block (st : Nat × Nat × Nat × Nat) (block : List Nat) :
    Nat × Nat × Nat × Nat :=
  let m := bytesToWords block
  let r := (List.range 64).foldl (md5Step m) st
  (w32 (st.1 + r.1), w32 (st.2.1 + r.2.1), w32 (st.2.2.1 + r.2.2.1), w32 (st.2.2.2 + r.2.2.2))

/-- The 16-byte MD5 digest of a byte string. -/
def md5Digest (msg : List Nat) : List Nat :=
  let r := (chunks64 (md5Pad msg)).foldl md5Block
    (1732584193, 4023233417, 2562383102, 271733878)
  leBytes r.1 4 ++ leBytes r.2.1 4 ++ leBytes r.2.2.1 4 ++ leBytes r.2.2.2 4

/-- Two lowercase hex digits for one byte. -/
def hexByte (b : Nat) : String := String.mk [hexDigitChar (b / 16), hexDigitChar (b % 16)]

/-- Lowercase hex rendering of the MD5 digest, as hexdigest returns it. -/
def md5hex (msg : List Nat) : String := String.join ((md5Digest msg).map hexByte)

/-- Bytes of a serialized configuration. json.dumps with its default
ensure_ascii setting only emits ASCII, so the bytes are the character codes. -/
def strBytes (s : String) : List Nat := s.data.map Char.toNat

namespace Datastore

/-- Datastore.hash_config: canonicalize with sub_dict, serialize with
json.dumps and sort_keys set, and take the MD5 hex digest. -/
def hash_config (config : Config) : String :=
  md5hex (strBytes (dumps (sub_dict config)))

end Datastore

/-! ### Ephemeral path deletion -/

mutual
/-- Modelled from the spec: dpath.util.delete is an external dependency.
Per spec sections 4.2 and 9, a path pattern is a sequence of segments where a
literal segment matches a mapping key and the wildcard segment matches any
sequence index; deletion removes every matched location, and the result is
none (PathNotFound) when nothing matched. -/
def deletePath : Config → List String → Option Config
  | _, [] => none
  | .obj kvs, [s] =>
      if kvs.any (fun p => p.1 == s) then some (.obj (kvs.filter (fun p => p.1 != s)))
      else none
  | .arr l, [s] =>
      if s == "*" && !l.isEmpty then some (.arr []) else none
  | .obj kvs, s :: s2 :: rest =>
      let r := deleteInPairs kvs s (s2 :: rest)
      if r.2 then some (.obj r.1) else none
  | .arr l, s :: s2 :: rest =>
      if s == "*" then
        let r := deleteInList l (s2 :: rest)
        if r.2 then some (.arr r.1) else none
      else none
  | _, _ => none

/-- Deletion of a path inside every element of a sequence; the flag records
whether any element matched. -/
def deleteInList : List Config → List String → List Config × Bool
  | [], _ => ([], false)
  | c :: cs, segs =>
      let tail := deleteInList cs segs
      match deletePath c segs with
      | some c' => (c' :: tail.1, true)
      | none => (c :: tail.1, tail.2)

/-- Deletion of a path inside the values of the entries whose key matches the
head segment; the flag records whether any value matched. -/
def deleteInPairs : List (String × Config) → String → List String →
    List (String × Config) × Bool
  | [], _, _ => ([], false)
  | (k, v) :: rest, s, segs =>
      let tail := deleteInPairs rest s segs
      if k == s then
        match deletePath v segs with
        | some v' => ((k, v') :: tail.1, true)
        | none => ((k, v) :: tail.1, tail.2)
      else ((k, v) :: tail.1, tail.2)
end

mutual
/-- Overwriting with `v` every location matched by a path pattern, leaving
the configuration unchanged where the path does not match. Used to state
that durable_hash ignores mutations confined to an ephemeral path. -/
def setPathAll : Config → List String → Config → Config
  | c, [], _ => c
  | .obj kvs, [s], v =>
      .obj (kvs.map (fun p => if p.1 == s then (p.1, v) else p))
  | .arr l, [s], v =>
      if s == "*" then .arr (l.map (fun _ => v)) else .arr l
  | .obj kvs, s :: s2 :: rest, v => .obj (setInPairs kvs s (s2 :: rest) v)
  | .arr l, s :: s2 :: rest, v =>
      if s == "*" then .arr (setInList l (s2 :: rest) v) else .arr l
  | c, _, _ => c

/-- Overwriting along a path inside every element of a sequence. -/
def setInList : List Config → List String → Config → List Config
  | [], _, _ => []
  | c :: cs, segs, v => setPathAll c segs v :: setInList cs segs v

/-- Overwriting along a path inside the values of matching entries. -/
def setInPairs : List (String × Config) → String → List String → Config →
    List (String × Config)
  | [], _, _, _ => []
  | (k, w) :: rest, s, segs, v =>
      if k == s then (k, setPathAll w segs v) :: setInPairs rest s segs v
      else (k, w) :: setInPairs rest s segs v
end

namespace Datastore

/-- Datastore.ephemeral_paths_for_tech: the static per-technology table of
ephemeral path patterns; unknown technologies have none. -/
def ephemeral_paths_for_tech (tech : String) : List String :=
  if tech = "redshift" then
    ["RestoreStatus",
     "ClusterStatus",
     "ClusterParameterGroups$ParameterApplyStatus",
     "ClusterParameterGroups$ClusterParameterStatusList$ParameterApplyErrorDescription",
     "ClusterParameterGroups$ClusterParameterStatusList$ParameterApplyStatus",
     "ClusterRevisionNumber"]
  else if tech = "securitygroup" then ["assigned_to"]
  else if tech = "iamuser" then
    ["user$password_last_used",
     "accesskeys$*$LastUsedDate",
     "accesskeys$*$Region",
     "accesskeys$*$ServiceName"]
  else []

/-- Splitting of a path pattern at dollar-sign separators, as
path.split(separator) does. -/
def splitOnDollarGo : List Char → List Char → List String
  | [], acc => [String.mk acc.reverse]
  | c :: rest, acc =>
      if c = '$' then String.mk acc.reverse :: splitOnDollarGo rest []
      else splitOnDollarGo rest (c :: acc)

/-- The segments of a path pattern with the dollar sign as separator. -/
def splitOnDollar (path : String) : List String := splitOnDollarGo path.data []

/-- One iteration of durable_hash's deletion loop: dpath.util.delete with
separator set to the dollar sign, with PathNotFound caught and ignored. -/
def deleteStep (c : Config) (path : String) : Config :=
  match deletePath c (Datastore.splitOnDollar path) with
  | some c' => c'
  | none => c

/-- Datastore.durable_hash: remove every ephemeral path from a copy of the
item (a missing path is a no-op) and hash the remaining structure. -/
def durable_hash (item : Config) (ephemeral_paths : List String) : String :=
  hash_config (ephemeral_paths.foldl deleteStep item)

end Datastore

/-! ### Database model -/

/-- A row of the account table (fields the engine reads). -/
structure AccountRec where
  id : Nat
  name : String
  active : Bool
deriving DecidableEq

/-- A row of the technology table. -/
structure TechnologyRec where
  id : Nat
  name : String
deriving DecidableEq

/-- A row of the item table (fields the engine touches). -/
structure ItemRec where
  id : Nat
  region : String
  name : String
  arn : Option String
  latest_revision_complete_hash : Option String
  latest_revision_durable_hash : Option String
  tech_id : Nat
  account_id : Nat
  latest_revision_id : Option Nat
deriving DecidableEq

/-- A row of the itemrevision table. Timestamps are modelled as naturals. -/
structure ItemRevisionRec where
  id : Nat
  active : Bool
  config : Config
  date_created : Nat
  date_last_ephemeral_change : Option Nat
  item_id : Nat
deriving DecidableEq

/-- A row of the itemaudit table (fields relevant to reconciliation). -/
structure ItemAuditRec where
  id : Nat
  score : Int
  issue : String
  notes : String
  justified : Bool
  justification : Option String
  item_id : Nat
deriving DecidableEq

/-- An ItemAudit object passed by the caller of store, before it is bound to
an item and given a row id. -/
structure NewIssue where
  score : Int
  issue : String
  notes : String
  justified : Bool
  justification : Option String
deriving DecidableEq

/-- A row of the exceptions table. -/
structure ExceptionLogRec where
  id : Nat
  source : String
  occurred : Nat
  ttl : Option Nat
  type : String
  message : String
  stacktrace : String
  region : Option String
  tech_id : Option Nat
  item_id : Option Nat
  account_id : Option Nat
deriving DecidableEq

/-- The transactional store the engine operates on, with id counters for the
rows the engine itself creates. -/
structure DB where
  accounts : List AccountRec
  technologies : List TechnologyRec
  items : List ItemRec
  revisions : List ItemRevisionRec
  issues : List ItemAuditRec
  exceptions : List ExceptionLogRec
  next_item_id : Nat
  next_revision_id : Nat
  next_issue_id : Nat
  next_tech_id : Nat
  next_exception_id : Nat
deriving DecidableEq

/-- The failures the embedded operations can raise. -/
inductive DSErr where
  | notFound (account : String)
  | dataIntegrityViolation (tech region account name : String)
  | attributeError (detail : String)
  | retryFailure (message : String)
  | noResultFound (detail : String)
  | multipleResultsFound (detail : String)
deriving DecidableEq

instance {e a : Type} [DecidableEq e] [DecidableEq a] : DecidableEq (Except e a) :=
  fun x y =>
    match x, y with
    | .ok v, .ok w => decidable_of_iff (v = w) (by simp)
    | .error v, .error w => decidable_of_iff (v = w) (by simp)
    | .ok _, .error _ => isFalse (fun h => Except.noConfusion h)
    | .error _, .ok _ => isFalse (fun h => Except.noConfusion h)

/-- Python truthiness of an optional string: None and the empty string are
falsy. -/
def optStrTruthy : Option String → Bool
  | some s => s != ""
  | none => false

/-- Python truthiness of an optional integer: None and 0 are falsy. -/
def optNatTruthy : Option Nat → Bool
  | some n => n != 0
  | none => false

/-- The join of _get_item: an item row matches when a technology row with its
tech_id bears the requested kind name, an account row with its account_id
bears the requested account name, and region and name agree. -/
def itemMatches (db : DB) (technology account region name : String) (i : ItemRec) : Bool :=
  db.technologies.any (fun t => t.id == i.tech_id && t.name == technology) &&
  db.accounts.any (fun a => a.id == i.account_id && a.name == account) &&
  i.region == region && i.name == name

/-- All item rows matching the identity tuple. -/
def matchingItems (db : DB) (technology account region name : String) : List ItemRec :=
  db.items.filter (itemMatches db technology account region name)

/-- A fresh, unsaved item scaffold as _get_item constructs it. -/
def newItemRec (id tech_id account_id : Nat) (region name : String) : ItemRec :=
  ⟨id, region, name, none, none, none, tech_id, account_id, none⟩

namespace Datastore

/-- Datastore._get_item: resolve the account (NotFound failure when absent),
then the identity tuple; more than one match is a data-integrity failure,
one match is returned, zero matches yields a new unsaved item bound to the
(possibly just created) technology row. -/
def _get_item (technology region account name : String) (db : DB) :
    Except DSErr (ItemRec × DB) :=
  match db.accounts.find? (fun a => a.name == account) with
  | none => .error (.notFound account)
  | some account_result =>
      let item := matchingItems db technology account region name
      if item.length > 1 then .error (.dataIntegrityViolation technology region account name)
      else match item with
      | [i] => .ok (i, db)
      | _ =>
          match db.technologies.find? (fun t => t.name == technology) with
          | some technology_result =>
              .ok (newItemRec db.next_item_id technology_result.id account_result.id region name,
                   db)
          | none =>
              let technology_result : TechnologyRec := ⟨db.next_tech_id, technology⟩
              .ok (newItemRec db.next_item_id technology_result.id account_result.id region name,
                   { db with technologies := db.technologies ++ [technology_result],
                             next_tech_id := db.next_tech_id + 1 })

end Datastore

/-- The revision history of one item, as rows of the revisions table. -/
def revisionsOf (db : DB) (itemId : Nat) : List ItemRevisionRec :=
  db.revisions.filter (fun r => r.item_id == itemId)

/-- Whether revision b was created strictly later than a (by creation date,
ties resolved by row id - a deterministic refinement of the source's
order_by desc(date_created)). -/
def laterRev (a b : ItemRevisionRec) : Bool :=
  b.date_created > a.date_created || (b.date_created == a.date_created && b.id > a.id)

/-- Accumulator of the most-recent-revision scan. -/
def pickLater (acc : Option ItemRevisionRec) (r : ItemRevisionRec) :
    Option ItemRevisionRec :=
  match acc with
  | none => some r
  | some b => if laterRev b r then some r else some b

/-- item.revisions.first(): the most recent revision of the item, none when
the item has no revision. -/
def latestRevisionOf (db : DB) (itemId : Nat) : Option ItemRevisionRec :=
  (revisionsOf db itemId).foldl pickLater none

/-- The issue identity key store builds: the issue type and the notes joined
with a slash. -/
def issueKey (issue notes : String) : String := issue ++ "/" ++ notes

/-- The ItemAudit row created when store attaches a caller-supplied issue to
an item. -/
def mkAudit (id itemId : Nat) (ni : NewIssue) : ItemAuditRec :=
  ⟨id, ni.score, ni.issue, ni.notes, ni.justified, ni.justification, itemId⟩

/-- The identity key of a stored issue. -/
def auditKey (oi : ItemAuditRec) : String := issueKey oi.issue oi.notes

/-- The identity key of a caller-supplied issue. -/
def niKey (ni : NewIssue) : String := issueKey ni.issue ni.notes

/-- The first reconciliation loop of store: walk new_issues appending every
issue whose key is not already present among the item's (growing) issues. -/
def addNewIssues (itemId : Nat) : List ItemAuditRec × Nat → List NewIssue →
    List ItemAuditRec × Nat
  | acc, [] => acc
  | (cur, nid), ni :: rest =>
      if (cur.map auditKey).contains (niKey ni)
      then addNewIssues itemId (cur, nid) rest
      else addNewIssues itemId (cur ++ [mkAudit nid itemId ni], nid + 1) rest

/-- The number of stored revisions of one item. -/
def revCount (db : DB) (itemId : Nat) : Nat := (revisionsOf db itemId).length

/-- The issues currently attached to an item. -/
def itemIssues (db : DB) (itemId : Nat) : List ItemAuditRec :=
  db.issues.filter (fun i => i.item_id == itemId)

/-- Both reconciliation loops of store: add new issues with unseen keys, then
delete every issue of the item whose key does not occur in new_issues. -/
def reconcileIssues (itemId : Nat) (new_issues : List NewIssue) (db : DB) : DB :=
  let r := addNewIssues itemId (itemIssues db itemId, db.next_issue_id) new_issues
  let kept := r.1.filter (fun oi => (new_issues.map niKey).contains (auditKey oi))
  { db with issues := db.issues.filter (fun oi => oi.item_id != itemId) ++ kept,
            next_issue_id := r.2 }

/-- Commit of the resolved item row: update in place when the row exists,
insert it otherwise. -/
def upsertItem (item : ItemRec) (db : DB) : DB :=
  if db.items.any (fun j => j.id == item.id) then
    { db with items := db.items.map (fun j => if j.id == item.id then item else j) }
  else
    { db with items := db.items ++ [item], next_item_id := db.next_item_id + 1 }

/-- The revision step of store: with ephemeral set, overwrite the most recent
revision's config and stamp its last-ephemeral-change time (failing like the
source's attribute access when there is no revision); otherwise append a new
revision with the given active flag and config. -/
def storeRevision (ephemeral active_flag : Bool) (config : Config) (now itemId : Nat)
    (db : DB) : Except DSErr DB :=
  if ephemeral then
    match latestRevisionOf db itemId with
    | none => .error (.attributeError "NoneType has no attribute config")
    | some item_revision =>
        let upd := { item_revision with config := config,
                                        date_last_ephemeral_change := some now }
        .ok { db with revisions :=
                db.revisions.map (fun r => if r.id == item_revision.id then upd else r) }
  else
    .ok { db with
            revisions := db.revisions ++
              [⟨db.next_revision_id, active_flag, config, now, none, itemId⟩],
            next_revision_id := db.next_revision_id + 1 }

namespace Datastore

/-- Datastore._set_latest_revision: point the item row at its most recent
revision. -/
def _set_latest_revision (itemId : Nat) (db : DB) : Except DSErr DB :=
  match latestRevisionOf db itemId with
  | none => .error (.attributeError "NoneType has no attribute id")
  | some latest_revision =>
      .ok { db with items := db.items.map (fun j =>
              if j.id == itemId then { j with latest_revision_id := some latest_revision.id }
              else j) }

/-- The in-memory item updates store performs before committing: set the
ARN when the argument is truthy, then recompute both hashes. -/
def storeItem (item0 : ItemRec) (arn : Option String) (config : Config)
    (ctype : String) : ItemRec :=
  { (if optStrTruthy arn then { item0 with arn := arn } else item0) with
      latest_revision_complete_hash := some (hash_config config),
      latest_revision_durable_hash :=
        some (durable_hash config (ephemeral_paths_for_tech ctype)) }

/-- Datastore.store: resolve the item, set its ARN when the argument is
truthy, recompute both hashes, write the revision (in place when ephemeral,
appended otherwise), reconcile the issues, commit, and set the latest
pointer. -/
def store (ctype region account name : String) (active_flag : Bool) (config : Config)
    (arn : Option String) (new_issues : List NewIssue) (ephemeral : Bool) (now : Nat)
    (db : DB) : Except DSErr DB :=
  match _get_item ctype region account name db with
  | .error e => .error e
  | .ok (item0, db1) =>
      let item := storeItem item0 arn config ctype
      match storeRevision ephemeral active_flag config now item.id db1 with
      | .error e => .error e
      | .ok db2 =>
          let db3 := reconcileIssues item.id new_issues db2
          let db4 := upsertItem item db3
          _set_latest_revision item.id db4

/-- Order of item.revisions: creation date descending (ties by id). -/
def revDescLe (a b : ItemRevisionRec) : Prop := laterRev b a ∨ a = b

instance : DecidableRel revDescLe := fun a b =>
  inferInstanceAs (Decidable (laterRev b a = true ∨ a = b))

/-- Datastore.get: all revisions of the resolved item, newest first. -/
def get (ctype region account name : String) (db : DB) :
    Except DSErr (List ItemRevisionRec × DB) :=
  match _get_item ctype region account name db with
  | .error e => .error e
  | .ok (item, db') => .ok (List.insertionSort revDescLe (revisionsOf db' item.id), db')

/-- Datastore.get_audit_issues: the issues attached to the resolved item. -/
def get_audit_issues (ctype region account name : String) (db : DB) :
    Except DSErr (List ItemAuditRec × DB) :=
  match _get_item ctype region account name db with
  | .error e => .error e
  | .ok (item, db') => .ok (itemIssues db' item.id, db')

end Datastore

/-- The optional filters of get_all_ctype_filtered, each applied only when
the argument is truthy (the region and name filters mirror the filter_by
dictionary from which falsy values are removed). -/
def queryItems (db : DB) (tech account region name : Option String) : List ItemRec :=
  let q0 := db.items
  let q1 := match tech with
    | some t =>
        if t != "" then
          q0.filter (fun i => db.technologies.any (fun tr => tr.id == i.tech_id && tr.name == t))
        else q0
    | none => q0
  let q2 := match account with
    | some a =>
        if a != "" then
          q1.filter (fun i => db.accounts.any (fun ar => ar.id == i.account_id && ar.name == a))
        else q1
    | none => q1
  let q3 := match region with
    | some r => if r != "" then q2.filter (fun i => i.region == r) else q2
    | none => q2
  match name with
  | some n => if n != "" then q3.filter (fun i => i.name == n) else q3
  | none => q3

/-- The retry loop of get_all_ctype_filtered. `transient attempt` is the
transient failure hitting that attempt, none when the attempt reaches the
database. The second component is the trace of sleeps (5 seconds after every
failed attempt). After the fifth failed attempt the loop raises its own
generic failure, without the underlying error. -/
def retryLoop (items : List ItemRec) (transient : Nat → Option String) :
    Nat → Nat → Except DSErr (List ItemRec) × List Nat
  | _attempt, 0 => (.error (.retryFailure "Too many retries for database connections."), [])
  | attempt, fuel + 1 =>
      match transient attempt with
      | none => (.ok items, [])
      | some _e =>
          if attempt + 1 > 5 then
            (.error (.retryFailure "Too many retries for database connections."), [5])
          else
            let r := retryLoop items transient (attempt + 1) fuel
            (r.1, 5 :: r.2)

def retryQuery (items : List ItemRec) (transient : Nat → Option String) (attempt : Nat) :
    Except DSErr (List ItemRec) × List Nat :=
  retryLoop items transient attempt (6 - attempt)

/-- The result-building loop of get_all_ctype_filtered: items with a falsy
latest-revision pointer are skipped; the pointed-to revision is fetched and
kept only when active or when include_inactive is set. -/
def buildItemMap (db : DB) (include_inactive : Bool) :
    List ItemRec → Except DSErr (List (ItemRec × ItemRevisionRec))
  | [] => .ok []
  | i :: rest =>
      match i.latest_revision_id with
      | none => buildItemMap db include_inactive rest
      | some rid =>
          if rid == 0 then buildItemMap db include_inactive rest
          else match db.revisions.find? (fun r => r.id == rid) with
            | none => .error (.attributeError "NoneType has no attribute active")
            | some most_recent =>
                if !most_recent.active && !include_inactive then
                  buildItemMap db include_inactive rest
                else match buildItemMap db include_inactive rest with
                  | .error e => .error e
                  | .ok m => .ok ((i, most_recent) :: m)

namespace Datastore

/-- Datastore.get_all_ctype_filtered: the filtered item query wrapped in the
bounded retry loop, followed by the join with each item's latest revision.
Returns the result together with the trace of retry sleeps. -/
def get_all_ctype_filtered (tech account region name : Option String)
    (include_inactive : Bool) (transient : Nat → Option String) (db : DB) :
    Except DSErr (List (ItemRec × ItemRevisionRec)) × List Nat :=
  let r := retryQuery (queryItems db tech account region name) transient 1
  match r.1 with
  | .error e => (.error e, r.2)
  | .ok its => (buildItemMap db include_inactive its, r.2)

end Datastore

/-- SQLAlchemy Query.one(): exactly one row or a failure. -/
def queryOne {α : Type} (l : List α) (detail : String) : Except DSErr α :=
  match l with
  | [x] => .ok x
  | [] => .error (.noResultFound detail)
  | _ => .error (.multipleResultsFound detail)

/-- The location-resolution steps of store_exception: an optional item
lookup (first match, skipped when absent), the region, then the account and
technology lookups which use one() and fail hard when not found. -/
def decorateEntry (entry : ExceptionLogRec) (location : List String) (db : DB) :
    Except DSErr ExceptionLogRec :=
  if location.isEmpty then .ok entry
  else
    let e1 := if location.length == 4 then
        match db.items.find? (fun i => i.name == location.getD 3 "") with
        | some item => { entry with item_id := some item.id }
        | none => entry
      else entry
    let e2 := if location.length ≥ 3 then { e1 with region := some (location.getD 2 "") } else e1
    let accStep : Except DSErr ExceptionLogRec :=
      if location.length ≥ 2 then
        match queryOne (db.accounts.filter (fun a => a.name == location.getD 1 "")) "account" with
        | .error e => .error e
        | .ok a => .ok { e2 with account_id := some a.id }
      else .ok e2
    match accStep with
    | .error e => .error e
    | .ok e3 =>
        match queryOne (db.technologies.filter (fun t => t.name == location.getD 0 ""))
            "technology" with
        | .error e => .error e
        | .ok t => .ok { e3 with tech_id := some t.id }

/-- The body of store_exception inside its try block: build the exceptions
row, resolve the location into foreign references, insert and commit. -/
def store_exception_body (source : String) (location : List String)
    (exc_type exc_message stack : String) (ttl : Option Nat) (now : Nat) (db : DB) :
    Except DSErr DB :=
  let entry : ExceptionLogRec :=
    ⟨db.next_exception_id, source, now, ttl, exc_type,
     String.mk (exc_message.data.take 512), stack, none, none, none, none⟩
  match decorateEntry entry location db with
  | .error e => .error e
  | .ok entry =>
      .ok { db with exceptions := db.exceptions ++ [entry],
                    next_exception_id := db.next_exception_id + 1 }

/-- store_exception: best effort - the whole body runs inside a try whose
except clause only logs, so a failing body leaves the store untouched and
nothing propagates to the caller. -/
def store_exception (source : String) (location : List String)
    (exc_type exc_message stack : String) (ttl : Option Nat) (now : Nat) (db : DB) : DB :=
  match store_exception_body source location exc_type exc_message stack ttl now db with
  | .ok db' => db'
  | .error _ => db

/-- clear_old_exceptions: delete every exceptions row whose ttl has passed. -/
def clear_old_exceptions (now : Nat) (db : DB) : DB :=
  { db with exceptions := db.exceptions.filter (fun e =>
      match e.ttl with
      | some t => Nat.blt now t
      | none => true) }

/-! ### Equivalence of configurations up to key order and list-of-mapping order -/

mutual
/-- Two configuration trees are equivalent when they agree up to the
insertion order of mapping entries (for mappings without duplicate keys, as
Python dictionaries are) and up to the order of the elements of a sequence
all of whose elements are mappings. -/
def ConfigEquiv : Config → Config → Prop
  | .str a, .str b => a = b
  | .num a, .num b => a = b
  | .bool a, .bool b => a = b
  | .null, .null => True
  | .arr l1, .arr l2 =>
      ConfigListEquiv l1 l2 ∨
      (allObj l1 = true ∧ ∃ l2', ConfigListEquiv l1 l2' ∧ l2'.Perm l2)
  | .obj kv1, .obj kv2 =>
      ConfigPairsEquiv kv1 kv2 ∨
      ((kv1.map Prod.fst).Nodup ∧ ∃ kv2', ConfigPairsEquiv kv1 kv2' ∧ kv2'.Perm kv2)
  | _, _ => False

/-- Elementwise equivalence of sequences. -/
def ConfigListEquiv : List Config → List Config → Prop
  | [], [] => True
  | a :: l1, b :: l2 => ConfigEquiv a b ∧ ConfigListEquiv l1 l2
  | _, _ => False

/-- Entrywise equivalence of mapping entry lists: equal keys, equivalent
values. -/
def ConfigPairsEquiv : List (String × Config) → List (String × Config) → Prop
  | [], [] => True
  | (k1, v1) :: l1, (k2, v2) :: l2 => k1 = k2 ∧ ConfigEquiv v1 v2 ∧ ConfigPairsEquiv l1 l2
  | _, _ => False
end

theorem ConfigEquiv.isObj_eq (c1 c2 : Config) (h : ConfigEquiv c1 c2) :
    Config.isObj c1 = Config.isObj c2 := by
  cases c1 <;> cases c2 <;> first | rfl | (exfalso; simp [ConfigEquiv] at h)

theorem ConfigListEquiv.allObj_eq : ∀ l1 l2 : List Config,
    ConfigListEquiv l1 l2 → allObj l1 = allObj l2
  | [], [] => fun _ => rfl
  | [], _ :: _ => fun h => absurd h (by simp [ConfigListEquiv])
  | _ :: _, [] => fun h => absurd h (by simp [ConfigListEquiv])
  | a :: l1, b :: l2 => fun h => by
      simp only [ConfigListEquiv] at h
      simp only [allObj, List.all_cons]
      rw [ConfigEquiv.isObj_eq a b h.1]
      have := ConfigListEquiv.allObj_eq l1 l2 h.2
      simp only [allObj] at this
      rw [this]

theorem allObj_perm {l1 l2 : List Config} (h : l1.Perm l2) : allObj l1 = allObj l2 := by
  have hiff : l1.all Config.isObj = true ↔ l2.all Config.isObj = true := by
    simp only [List.all_eq_true]
    exact ⟨fun hh x hx => hh x (h.mem_iff.mpr hx), fun hh x hx => hh x (h.mem_iff.mp hx)⟩
  unfold allObj
  cases hx : l1.all Config.isObj <;> cases hy : l2.all Config.isObj <;> simp_all

theorem dumpsList_eq_map : ∀ l : List Config, dumpsList l = l.map dumps
  | [] => rfl
  | c :: cs => by rw [dumpsList, dumpsList_eq_map cs, List.map_cons]

theorem dumpsPairs_eq_map : ∀ kv : List (String × Config),
    dumpsPairs kv = kv.map (fun p => (p.1, dumps p.2))
  | [] => rfl
  | (k, v) :: rest => by rw [dumpsPairs, dumpsPairs_eq_map rest, List.map_cons]

theorem subList_eq_map : ∀ l : List Config, subList l = l.map sub_dict
  | [] => rfl
  | c :: cs => by rw [subList, subList_eq_map cs, List.map_cons]

theorem subPairs_eq_map : ∀ kv : List (String × Config),
    subPairs kv = kv.map (fun p => (p.1, sub_dict p.2))
  | [] => rfl
  | (k, v) :: rest => by rw [subPairs, subPairs_eq_map rest, List.map_cons]

/-- Sorting by serialization commutes with taking serializations. -/
theorem map_dumps_insertionSort (l : List Config) :
    (List.insertionSort dumpsLe l).map dumps =
      List.insertionSort (fun a b : String => strLe a b = true) (l.map dumps) :=
  List.map_insertionSort dumpsLe (fun a b : String => strLe a b = true) dumps l
    (fun _ _ _ _ => Iff.rfl)

/-- Two permuted lists with the same strict pairwise order are equal. -/
theorem eq_of_perm_of_pairwise_asymm {α : Type} {R : α → α → Prop}
    (hasymm : ∀ a b, R a b → R b a → False) :
    ∀ {l1 l2 : List α}, l1.Perm l2 → l1.Pairwise R → l2.Pairwise R → l1 = l2 := by
  intro l1
  induction l1 with
  | nil => intro l2 hp _ _; exact (List.Perm.eq_nil hp.symm).symm
  | cons a t ih =>
    intro l2 hp h1 h2
    have ha : a ∈ l2 := hp.mem_iff.mp (List.mem_cons_self a t)
    obtain ⟨u, v, rfl⟩ := List.append_of_mem ha
    cases u with
    | nil =>
      have hp' : (a :: t).Perm (a :: v) := by simpa using hp
      have h2' : (a :: v).Pairwise R := by simpa using h2
      have ht : t = v := ih hp'.cons_inv (List.Pairwise.of_cons h1) (List.Pairwise.of_cons h2')
      simp [ht]
    | cons b u' =>
      exfalso
      have hba : R b a := by
        have h2' : List.Pairwise R (b :: (u' ++ a :: v)) := by
          simpa only [List.cons_append] using h2
        exact (List.pairwise_cons.mp h2').1 a (by simp)
      have hbmem : b ∈ a :: t := hp.mem_iff.mpr (by simp)
      rcases List.mem_cons.mp hbmem with hb | hb
      · subst hb
        exact hasymm b b hba hba
      · exact hasymm a b ((List.pairwise_cons.mp h1).1 b hb) hba

/-- The code-point order on character lists is total. -/
theorem charsLe_total : ∀ a b : List Char, charsLe a b = true ∨ charsLe b a = true
  | [], _ => Or.inl rfl
  | _ :: _, [] => Or.inr rfl
  | a :: as, b :: bs => by
      simp only [charsLe]
      rcases Nat.lt_trichotomy a.toNat b.toNat with h | h | h
      · left; rw [if_pos h]
      · rw [if_neg (by omega), if_neg (by omega), if_neg (by omega), if_neg (by omega)]
        exact charsLe_total as bs
      · right; rw [if_pos h]

/-- The code-point order on character lists is transitive. -/
theorem charsLe_trans : ∀ a b c : List Char,
    charsLe a b = true → charsLe b c = true → charsLe a c = true
  | [], _, _ => fun _ _ => rfl
  | _ :: _, [], _ => fun h _ => by simp [charsLe] at h
  | _ :: _, _ :: _, [] => fun _ h => by simp [charsLe] at h
  | a :: as, b :: bs, c :: cs => fun h1 h2 => by
      simp only [charsLe] at h1 h2 ⊢
      have hab : a.toNat ≤ b.toNat := by
        by_contra h
        rw [if_neg (by omega), if_pos (by omega)] at h1
        exact Bool.false_ne_true h1
      have hbc : b.toNat ≤ c.toNat := by
        by_contra h
        rw [if_neg (by omega), if_pos (by omega)] at h2
        exact Bool.false_ne_true h2
      by_cases hac : a.toNat < c.toNat
      · rw [if_pos hac]
      · rw [if_neg (show ¬ a.toNat < b.toNat by omega),
            if_neg (show ¬ b.toNat < a.toNat by omega)] at h1
        rw [if_neg (show ¬ b.toNat < c.toNat by omega),
            if_neg (show ¬ c.toNat < b.toNat by omega)] at h2
        rw [if_neg hac, if_neg (show ¬ c.toNat < a.toNat by omega)]
        exact charsLe_trans as bs cs h1 h2

/-- The code-point order on character lists is antisymmetric. -/
theorem charsLe_antisymm : ∀ a b : List Char,
    charsLe a b = true → charsLe b a = true → a = b
  | [], [] => fun _ _ => rfl
  | [], _ :: _ => fun _ h => by simp [charsLe] at h
  | _ :: _, [] => fun h _ => by simp [charsLe] at h
  | a :: as, b :: bs => fun h1 h2 => by
      simp only [charsLe] at h1 h2
      have hab : a.toNat ≤ b.toNat := by
        by_contra h
        rw [if_neg (by omega), if_pos (by omega)] at h1
        exact Bool.false_ne_true h1
      have hba : b.toNat ≤ a.toNat := by
        by_contra h
        rw [if_neg (by omega), if_pos (by omega)] at h2
        exact Bool.false_ne_true h2
      have he : a.toNat = b.toNat := by omega
      have hch : a = b := Char.ext (UInt32.ext he)
      rw [if_neg (show ¬ a.toNat < b.toNat by omega),
          if_neg (show ¬ b.toNat < a.toNat by omega)] at h1
      rw [if_neg (show ¬ b.toNat < a.toNat by omega),
          if_neg (show ¬ a.toNat < b.toNat by omega)] at h2
      rw [hch, charsLe_antisymm as bs h1 h2]

theorem strLe_total (a b : String) : strLe a b = true ∨ strLe b a = true :=
  charsLe_total a.data b.data

theorem strLe_trans {a b c : String} (h1 : strLe a b = true) (h2 : strLe b c = true) :
    strLe a c = true :=
  charsLe_trans a.data b.data c.data h1 h2

theorem strLe_antisymm {a b : String} (h1 : strLe a b = true) (h2 : strLe b a = true) :
    a = b :=
  String.ext (charsLe_antisymm a.data b.data h1 h2)

/-- Key-sorting of serialized mapping entries is permutation invariant when
the keys have no duplicates (the stable order of equal keys never matters). -/
theorem insertionSort_keyLe_eq_of_perm {x y : List (String × String)}
    (hperm : x.Perm y) (hnd : (x.map Prod.fst).Nodup) :
    List.insertionSort keyLe x = List.insertionSort keyLe y := by
  haveI ht : IsTotal (String × String) keyLe := ⟨fun a b => charsLe_total a.1.data b.1.data⟩
  haveI htr : IsTrans (String × String) keyLe := ⟨fun _ _ _ h1 h2 => strLe_trans h1 h2⟩
  have key_pairwise : ∀ z : List (String × String), (z.map Prod.fst).Nodup →
      (List.insertionSort keyLe z).Pairwise
        (fun p q : String × String => keyLe p q ∧ p.1 ≠ q.1) := by
    intro z hz
    have hsort : (List.insertionSort keyLe z).Pairwise keyLe :=
      List.sorted_insertionSort keyLe z
    have hnod : ((List.insertionSort keyLe z).map Prod.fst).Nodup :=
      (((List.perm_insertionSort keyLe z).map Prod.fst).nodup_iff).mpr hz
    have hne : (List.insertionSort keyLe z).Pairwise (fun p q => p.1 ≠ q.1) :=
      List.pairwise_map.mp hnod
    exact hsort.and hne
  apply eq_of_perm_of_pairwise_asymm
    (R := fun p q : String × String => keyLe p q ∧ p.1 ≠ q.1)
    (fun a b h1 h2 => h1.2 (strLe_antisymm h1.1 h2.1))
  · exact (List.perm_insertionSort keyLe x).trans
      (hperm.trans (List.perm_insertionSort keyLe y).symm)
  · exact key_pairwise x hnd
  · exact key_pairwise y (((hperm.map Prod.fst).nodup_iff).mp hnd)

/-- Sorting of strings is permutation invariant. -/
theorem insertionSort_strings_eq_of_perm {x y : List String} (h : x.Perm y) :
    List.insertionSort (fun a b : String => strLe a b = true) x =
      List.insertionSort (fun a b : String => strLe a b = true) y := by
  haveI : IsTotal String (fun a b : String => strLe a b = true) := ⟨strLe_total⟩
  haveI : IsTrans String (fun a b : String => strLe a b = true) :=
    ⟨fun _ _ _ h1 h2 => strLe_trans h1 h2⟩
  haveI : IsAntisymm String (fun a b : String => strLe a b = true) :=
    ⟨fun _ _ h1 h2 => strLe_antisymm h1 h2⟩
  exact List.eq_of_perm_of_sorted
    ((List.perm_insertionSort _ x).trans (h.trans (List.perm_insertionSort _ y).symm))
    (List.sorted_insertionSort _ x) (List.sorted_insertionSort _ y)

mutual
/-- Equivalent configurations canonicalize and serialize identically. -/
theorem equiv_dumps : ∀ c1 c2 : Config, ConfigEquiv c1 c2 →
    dumps (sub_dict c1) = dumps (sub_dict c2)
  | .str a, .str b => fun h => by
      simp only [ConfigEquiv] at h; subst h; rfl
  | .num a, .num b => fun h => by
      simp only [ConfigEquiv] at h; subst h; rfl
  | .bool a, .bool b => fun h => by
      simp only [ConfigEquiv] at h; subst h; rfl
  | .null, .null => fun _ => rfl
  | .str _, .num _ => fun h => absurd h (by simp [ConfigEquiv])
  | .str _, .bool _ => fun h => absurd h (by simp [ConfigEquiv])
  | .str _, .null => fun h => absurd h (by simp [ConfigEquiv])
  | .str _, .arr _ => fun h => absurd h (by simp [ConfigEquiv])
  | .str _, .obj _ => fun h => absurd h (by simp [ConfigEquiv])
  | .num _, .str _ => fun h => absurd h (by simp [ConfigEquiv])
  | .num _, .bool _ => fun h => absurd h (by simp [ConfigEquiv])
  | .num _, .null => fun h => absurd h (by simp [ConfigEquiv])
  | .num _, .arr _ => fun h => absurd h (by simp [ConfigEquiv])
  | .num _, .obj _ => fun h => absurd h (by simp [ConfigEquiv])
  | .bool _, .str _ => fun h => absurd h (by simp [ConfigEquiv])
  | .bool _, .num _ => fun h => absurd h (by simp [ConfigEquiv])
  | .bool _, .null => fun h => absurd h (by simp [ConfigEquiv])
  | .bool _, .arr _ => fun h => absurd h (by simp [ConfigEquiv])
  | .bool _, .obj _ => fun h => absurd h (by simp [ConfigEquiv])
  | .null, .str _ => fun h => absurd h (by simp [ConfigEquiv])
  | .null, .num _ => fun h => absurd h (by simp [ConfigEquiv])
  | .null, .bool _ => fun h => absurd h (by simp [ConfigEquiv])
  | .null, .arr _ => fun h => absurd h (by simp [ConfigEquiv])
  | .null, .obj _ => fun h => absurd h (by simp [ConfigEquiv])
  | .arr _, .str _ => fun h => absurd h (by simp [ConfigEquiv])
  | .arr _, .num _ => fun h => absurd h (by simp [ConfigEquiv])
  | .arr _, .bool _ => fun h => absurd h (by simp [ConfigEquiv])
  | .arr _, .null => fun h => absurd h (by simp [ConfigEquiv])
  | .arr _, .obj _ => fun h => absurd h (by simp [ConfigEquiv])
  | .obj _, .str _ => fun h => absurd h (by simp [ConfigEquiv])
  | .obj _, .num _ => fun h => absurd h (by simp [ConfigEquiv])
  | .obj _, .bool _ => fun h => absurd h (by simp [ConfigEquiv])
  | .obj _, .null => fun h => absurd h (by simp [ConfigEquiv])
  | .obj _, .arr _ => fun h => absurd h (by simp [ConfigEquiv])
  | .arr l1, .arr l2 => fun h => by
      simp only [ConfigEquiv] at h
      have hall : allObj l1 = allObj l2 := by
        rcases h with h | ⟨_, l2', hpt, hperm⟩
        · exact ConfigListEquiv.allObj_eq l1 l2 h
        · exact (ConfigListEquiv.allObj_eq l1 l2' hpt).trans (allObj_perm hperm)
      by_cases hobj : allObj l1 = true
      · have hobj2 : allObj l2 = true := hall ▸ hobj
        simp only [sub_dict, hobj, hobj2, if_pos, dumps]
        rw [dumpsList_eq_map, dumpsList_eq_map, map_dumps_insertionSort,
            map_dumps_insertionSort, subList_eq_map, subList_eq_map,
            List.map_map, List.map_map]
        rcases h with h | ⟨_, l2', hpt, hperm⟩
        · have he := equivList_dumps l1 l2 h
          simp only [Function.comp_def]
          rw [he]
        · have he := equivList_dumps l1 l2' hpt
          have hpm : (l1.map fun c => dumps (sub_dict c)).Perm
              (l2.map fun c => dumps (sub_dict c)) := by
            rw [he]; exact hperm.map _
          simp only [Function.comp_def]
          rw [insertionSort_strings_eq_of_perm hpm]
      · have hobj2 : ¬ allObj l2 = true := by rw [← hall]; exact hobj
        rcases h with h | ⟨hobj1, _⟩
        · simp only [sub_dict, if_neg hobj, if_neg hobj2, dumps]
          rw [dumpsList_eq_map, dumpsList_eq_map, subList_eq_map, subList_eq_map,
              List.map_map, List.map_map]
          have he := equivList_dumps l1 l2 h
          simp only [Function.comp_def]
          rw [he]
        · exact absurd hobj1 hobj
  | .obj kv1, .obj kv2 => fun h => by
      simp only [ConfigEquiv] at h
      have hDP : ∀ kv : List (String × Config),
          dumpsPairs (subPairs kv) = kv.map (fun p => (p.1, dumps (sub_dict p.2))) := by
        intro kv
        rw [subPairs_eq_map, dumpsPairs_eq_map, List.map_map]
        rfl
      simp only [sub_dict, dumps]
      rw [hDP, hDP]
      rcases h with h | ⟨hnd, kv2', hpt, hperm⟩
      · rw [equivPairs_dumps kv1 kv2 h]
      · have he := equivPairs_dumps kv1 kv2' hpt
        have hpm : (kv1.map fun p => (p.1, dumps (sub_dict p.2))).Perm
            (kv2.map fun p => (p.1, dumps (sub_dict p.2))) := by
          rw [he]; exact hperm.map _
        have hndm : ((kv1.map fun p => (p.1, dumps (sub_dict p.2))).map Prod.fst).Nodup := by
          rw [List.map_map]
          exact hnd
        rw [insertionSort_keyLe_eq_of_perm hpm hndm]

/-- Elementwise-equivalent sequences have equal canonical serializations. -/
theorem equivList_dumps : ∀ l1 l2 : List Config, ConfigListEquiv l1 l2 →
    l1.map (fun c => dumps (sub_dict c)) = l2.map (fun c => dumps (sub_dict c))
  | [], [] => fun _ => rfl
  | [], _ :: _ => fun h => absurd h (by simp [ConfigListEquiv])
  | _ :: _, [] => fun h => absurd h (by simp [ConfigListEquiv])
  | a :: l1, b :: l2 => fun h => by
      simp only [ConfigListEquiv] at h
      simp only [List.map_cons]
      rw [equiv_dumps a b h.1, equivList_dumps l1 l2 h.2]

/-- Entrywise-equivalent mapping entries have equal keys and equal canonical
value serializations. -/
theorem equivPairs_dumps : ∀ kv1 kv2 : List (String × Config), ConfigPairsEquiv kv1 kv2 →
    kv1.map (fun p => (p.1, dumps (sub_dict p.2))) =
      kv2.map (fun p => (p.1, dumps (sub_dict p.2)))
  | [], [] => fun _ => rfl
  | [], _ :: _ => fun h => absurd h (by simp [ConfigPairsEquiv])
  | _ :: _, [] => fun h => absurd h (by simp [ConfigPairsEquiv])
  | (k1, v1) :: l1, (k2, v2) :: l2 => fun h => by
      simp only [ConfigPairsEquiv] at h
      simp only [List.map_cons]
      rw [h.1, equiv_dumps v1 v2 h.2.1, equivPairs_dumps l1 l2 h.2.2]
end

/-! ### Deletion and overwriting along ephemeral paths -/

theorem map_overwrite_any (kvs : List (String × Config)) (s : String) (v : Config) :
    (kvs.map (fun p => if p.1 == s then (p.1, v) else p)).any (fun p => p.1 == s) =
      kvs.any (fun p => p.1 == s) := by
  induction kvs with
  | nil => rfl
  | cons p rest ih =>
      by_cases hp : (p.1 == s) = true
      · rw [List.map_cons, if_pos hp, List.any_cons, List.any_cons, ih]
      · rw [List.map_cons, if_neg hp, List.any_cons, List.any_cons, ih]

theorem map_overwrite_filter (kvs : List (String × Config)) (s : String) (v : Config) :
    (kvs.map (fun p => if p.1 == s then (p.1, v) else p)).filter (fun p => p.1 != s) =
      kvs.filter (fun p => p.1 != s) := by
  induction kvs with
  | nil => rfl
  | cons p rest ih =>
      by_cases hp : (p.1 == s) = true
      · have hne : ¬((p.1 != s) = true) := by rw [bne, hp]; simp
        rw [List.map_cons, if_pos hp, List.filter_cons, List.filter_cons,
            if_neg hne, if_neg hne, ih]
      · have hye : (p.1 != s) = true := by
          rw [bne, Bool.eq_false_iff.mpr hp]; rfl
        rw [List.map_cons, if_neg hp, List.filter_cons, List.filter_cons,
            if_pos hye, if_pos hye, ih]

theorem map_overwrite_id (kvs : List (String × Config)) (s : String) (v : Config)
    (h : kvs.any (fun p => p.1 == s) = false) :
    kvs.map (fun p => if p.1 == s then (p.1, v) else p) = kvs := by
  induction kvs with
  | nil => rfl
  | cons p rest ih =>
      rw [List.any_cons, Bool.or_eq_false_iff] at h
      rw [List.map_cons, if_neg (by rw [h.1]; exact Bool.false_ne_true), ih h.2]

mutual
/-- Deleting a path after overwriting along that same path gives the same
result (and the same PathNotFound outcome) as deleting it directly. -/
theorem delete_set : ∀ (c : Config) (segs : List String) (v : Config),
    deletePath (setPathAll c segs v) segs = deletePath c segs
  | c, [], v => by cases c <;> simp [setPathAll.eq_def]
  | .obj kvs, [s], v => by
      simp only [setPathAll, deletePath]
      rw [map_overwrite_any kvs s v, map_overwrite_filter kvs s v]
  | .arr l, [s], v => by
      by_cases hs : (s == "*") = true
      · have hs' : s = "*" := by simpa using hs
        subst hs'
        simp only [setPathAll.eq_def, deletePath.eq_def]
        cases l <;> simp
      · simp [setPathAll.eq_def, deletePath.eq_def, hs]
  | .str s0, [s], v => by simp [setPathAll.eq_def]
  | .num n, [s], v => by simp [setPathAll.eq_def]
  | .bool b, [s], v => by simp [setPathAll.eq_def]
  | .null, [s], v => by simp [setPathAll.eq_def]
  | .obj kvs, s :: s2 :: rest, v => by
      simp only [setPathAll, deletePath]
      rw [deleteInPairs_set kvs s (s2 :: rest) v]
  | .arr l, s :: s2 :: rest, v => by
      by_cases hs : (s == "*") = true
      · have hs' : s = "*" := by simpa using hs
        subst hs'
        simp [setPathAll.eq_def, deletePath.eq_def, deleteInList_set l (s2 :: rest) v]
      · simp [setPathAll.eq_def, deletePath.eq_def, hs]
  | .str s0, s :: s2 :: rest, v => by simp [setPathAll.eq_def]
  | .num n, s :: s2 :: rest, v => by simp [setPathAll.eq_def]
  | .bool b, s :: s2 :: rest, v => by simp [setPathAll.eq_def]
  | .null, s :: s2 :: rest, v => by simp [setPathAll.eq_def]

theorem deleteInList_set : ∀ (l : List Config) (segs : List String) (v : Config),
    deleteInList (setInList l segs v) segs = deleteInList l segs
  | [], _, _ => rfl
  | c :: cs, segs, v => by
      simp only [setInList, deleteInList]
      rw [deleteInList_set cs segs v, delete_set c segs v]
      cases hd : deletePath c segs with
      | some c' => simp [hd]
      | none => simp [hd, set_noop c segs v hd]

theorem deleteInPairs_set : ∀ (kvs : List (String × Config)) (s : String)
    (segs : List String) (v : Config),
    deleteInPairs (setInPairs kvs s segs v) s segs = deleteInPairs kvs s segs
  | [], _, _, _ => rfl
  | (k, w) :: rest, s, segs, v => by
      by_cases hk : (k == s) = true
      · simp only [setInPairs, deleteInPairs, if_pos hk]
        rw [delete_set w segs v, deleteInPairs_set rest s segs v]
        cases hd : deletePath w segs with
        | some w' => simp [hd]
        | none => simp [hd, set_noop w segs v hd]
      · simp only [setInPairs, deleteInPairs, if_neg hk]
        rw [deleteInPairs_set rest s segs v]

/-- Where deletion finds nothing, overwriting along the same path changes
nothing. -/
theorem set_noop : ∀ (c : Config) (segs : List String) (v : Config),
    deletePath c segs = none → setPathAll c segs v = c
  | c, [], v => fun _ => by cases c <;> simp [setPathAll.eq_def]
  | .obj kvs, [s], v => fun h => by
      simp only [deletePath] at h
      by_cases ha : (kvs.any fun p => p.1 == s) = true
      · simp [ha] at h
      · simp only [setPathAll]
        rw [map_overwrite_id kvs s v (Bool.eq_false_iff.mpr ha)]
  | .arr l, [s], v => fun h => by
      by_cases hs : (s == "*") = true
      · have hs' : s = "*" := by simpa using hs
        subst hs'
        simp only [deletePath.eq_def] at h
        cases l with
        | nil => simp [setPathAll.eq_def]
        | cons c cs => simp at h
      · simp [setPathAll.eq_def, hs]
  | .str s0, [s], v => fun _ => by simp [setPathAll.eq_def]
  | .num n, [s], v => fun _ => by simp [setPathAll.eq_def]
  | .bool b, [s], v => fun _ => by simp [setPathAll.eq_def]
  | .null, [s], v => fun _ => by simp [setPathAll.eq_def]
  | .obj kvs, s :: s2 :: rest, v => fun h => by
      simp only [deletePath] at h
      by_cases hf : (deleteInPairs kvs s (s2 :: rest)).2 = true
      · simp [hf] at h
      · simp only [setPathAll]
        rw [setInPairs_noop kvs s (s2 :: rest) v (Bool.eq_false_iff.mpr hf)]
  | .arr l, s :: s2 :: rest, v => fun h => by
      by_cases hs : (s == "*") = true
      · have hs' : s = "*" := by simpa using hs
        subst hs'
        simp only [deletePath.eq_def] at h
        by_cases hf : (deleteInList l (s2 :: rest)).2 = true
        · simp [hf] at h
        · simp only [setPathAll.eq_def]
          rw [setInList_noop l (s2 :: rest) v (Bool.eq_false_iff.mpr hf)]
          simp
      · simp [setPathAll.eq_def, hs]
  | .str s0, s :: s2 :: rest, v => fun _ => by simp [setPathAll.eq_def]
  | .num n, s :: s2 :: rest, v => fun _ => by simp [setPathAll.eq_def]
  | .bool b, s :: s2 :: rest, v => fun _ => by simp [setPathAll.eq_def]
  | .null, s :: s2 :: rest, v => fun _ => by simp [setPathAll.eq_def]

theorem setInList_noop : ∀ (l : List Config) (segs : List String) (v : Config),
    (deleteInList l segs).2 = false → setInList l segs v = l
  | [], _, _ => fun _ => rfl
  | c :: cs, segs, v => fun h => by
      simp only [deleteInList] at h
      cases hd : deletePath c segs with
      | some c' => rw [hd] at h; simp at h
      | none =>
          rw [hd] at h
          simp only [setInList]
          rw [set_noop c segs v hd, setInList_noop cs segs v (by simpa using h)]

theorem setInPairs_noop : ∀ (kvs : List (String × Config)) (s : String)
    (segs : List String) (v : Config),
    (deleteInPairs kvs s segs).2 = false → setInPairs kvs s segs v = kvs
  | [], _, _, _ => fun _ => rfl
  | (k, w) :: rest, s, segs, v => fun h => by
      by_cases hk : (k == s) = true
      · simp only [deleteInPairs, if_pos hk] at h
        cases hd : deletePath w segs with
        | some w' => rw [hd] at h; simp at h
        | none =>
            rw [hd] at h
            simp only [setInPairs, if_pos hk]
            rw [set_noop w segs v hd, setInPairs_noop rest s segs v (by simpa using h)]
      · simp only [deleteInPairs, if_neg hk] at h
        simp only [setInPairs, if_neg hk]
        rw [setInPairs_noop rest s segs v h]
end

/-! ### The hex digest is a 32-character lowercase hex string -/

/-- Lowercase hexadecimal digits: decimal digits or the letters a to f. -/
def isHexDigit (c : Char) : Bool :=
  (48 ≤ c.toNat && c.toNat ≤ 57) || (97 ≤ c.toNat && c.toNat ≤ 102)

theorem leBytes_length : ∀ (w k : Nat), (leBytes w k).length = k
  | _, 0 => rfl
  | w, k + 1 => by simp [leBytes, leBytes_length (w / 256) k]

theorem leBytes_lt : ∀ (w k b : Nat), b ∈ leBytes w k → b < 256
  | w, 0, b => fun h => by simp [leBytes] at h
  | w, k + 1, b => fun h => by
      simp only [leBytes, List.mem_cons] at h
      rcases h with h | h
      · subst h; exact Nat.mod_lt _ (by omega)
      · exact leBytes_lt (w / 256) k b h

theorem md5Digest_length (msg : List Nat) : (md5Digest msg).length = 16 := by
  unfold md5Digest
  simp [leBytes_length]

theorem md5Digest_lt (msg : List Nat) : ∀ b ∈ md5Digest msg, b < 256 := by
  intro b hb
  unfold md5Digest at hb
  simp only [List.mem_append] at hb
  rcases hb with ((h | h) | h) | h <;> exact leBytes_lt _ _ _ h

theorem hexDigitChar_isHex (n : Nat) (h : n < 16) : isHexDigit (hexDigitChar n) = true := by
  interval_cases n <;> decide

theorem hexByte_chars (b : Nat) (h : b < 256) : ∀ c ∈ (hexByte b).data, isHexDigit c = true := by
  intro c hc
  have hdata : (hexByte b).data = [hexDigitChar (b / 16), hexDigitChar (b % 16)] := rfl
  rw [hdata] at hc
  rcases List.mem_cons.mp hc with h1 | h1
  · subst h1
    exact hexDigitChar_isHex _ (Nat.div_lt_of_lt_mul (by omega))
  · rcases List.mem_cons.mp h1 with h2 | h2
    · subst h2
      exact hexDigitChar_isHex _ (Nat.mod_lt _ (by omega))
    · simp at h2

theorem foldl_append_length : ∀ (l : List String) (acc : String),
    (l.foldl (· ++ ·) acc).length = acc.length + (l.map String.length).sum
  | [], acc => by simp
  | s :: rest, acc => by
      simp only [List.foldl_cons, List.map_cons, List.sum_cons]
      rw [foldl_append_length rest (acc ++ s), String.length_append]
      omega

theorem foldl_append_data : ∀ (l : List String) (acc : String),
    (l.foldl (· ++ ·) acc).data = acc.data ++ (l.map String.data).flatten
  | [], acc => by simp
  | s :: rest, acc => by
      simp only [List.foldl_cons, List.map_cons, List.flatten_cons]
      rw [foldl_append_data rest (acc ++ s)]
      show (acc.data ++ s.data) ++ _ = _
      rw [List.append_assoc]

theorem md5hex_length (msg : List Nat) : (md5hex msg).length = 32 := by
  unfold md5hex
  show (((md5Digest msg).map hexByte).foldl (· ++ ·) "").length = 32
  rw [foldl_append_length]
  have h2 : ∀ l : List Nat, ((l.map hexByte).map String.length).sum = 2 * l.length := by
    intro l
    induction l with
    | nil => rfl
    | cons b rest ih =>
        simp only [List.map_cons, List.sum_cons, ih, List.length_cons]
        have : (hexByte b).length = 2 := rfl
        omega
  rw [h2, md5Digest_length]
  rfl

theorem md5hex_chars (msg : List Nat) : (md5hex msg).data.all isHexDigit = true := by
  rw [List.all_eq_true]
  intro c hc
  have hd : (md5hex msg).data = (((md5Digest msg).map hexByte).map String.data).flatten := by
    unfold md5hex
    show (((md5Digest msg).map hexByte).foldl (· ++ ·) "").data = _
    rw [foldl_append_data]
    rfl
  rw [hd] at hc
  rcases List.mem_flatten.mp hc with ⟨l, hl, hcl⟩
  rcases List.mem_map.mp hl with ⟨s, hs, rfl⟩
  rcases List.mem_map.mp hs with ⟨b, hb, rfl⟩
  exact hexByte_chars b (md5Digest_lt msg b hb) c hcl

/-! ### Claim C2 -/

/-- C2: for any two configuration trees that are equal up to mapping key
insertion order and up to the ordering of elements inside a sequence whose
elements are mappings, hash_config returns the same string; that string is a
32-character lowercase hex string; and hash_config is deterministic across
repeated calls on the same input. -/
theorem C2_hash_config_order_independent :
    (∀ c1 c2 : Config, ConfigEquiv c1 c2 →
      Datastore.hash_config c1 = Datastore.hash_config c2) ∧
    (∀ c : Config, Datastore.hash_config c = Datastore.hash_config c) ∧
    (∀ c : Config, (Datastore.hash_config c).length = 32 ∧
      (Datastore.hash_config c).data.all isHexDigit = true) := by
  refine ⟨?_, fun c => rfl, fun c => ⟨md5hex_length _, md5hex_chars _⟩⟩
  intro c1 c2 h
  unfold Datastore.hash_config
  rw [equiv_dumps c1 c2 h]

/-- Witness for C2 at a concrete pair of key-reordered mappings. -/
theorem C2_hash_config_order_independent_witness :
    ConfigEquiv (Config.obj [("b", Config.num 1), ("a", Config.num 2)])
      (Config.obj [("a", Config.num 2), ("b", Config.num 1)]) ∧
    Datastore.hash_config (Config.obj [("b", Config.num 1), ("a", Config.num 2)]) =
      Datastore.hash_config (Config.obj [("a", Config.num 2), ("b", Config.num 1)]) := by
  have hpt : ConfigPairsEquiv [("b", Config.num 1), ("a", Config.num 2)]
      [("b", Config.num 1), ("a", Config.num 2)] := by
    simp [ConfigPairsEquiv, ConfigEquiv]
  have hequiv : ConfigEquiv (Config.obj [("b", Config.num 1), ("a", Config.num 2)])
      (Config.obj [("a", Config.num 2), ("b", Config.num 1)]) := by
    simp only [ConfigEquiv]
    right
    refine ⟨by decide, [("b", Config.num 1), ("a", Config.num 2)], hpt, ?_⟩
    exact List.Perm.swap ("a", Config.num 2) ("b", Config.num 1) []
  exact ⟨hequiv, C2_hash_config_order_independent.1 _ _ hequiv⟩

/-! ### Claims C3 and C4 -/

/-- The spec's securitygroup scenario config with assigned_to x. -/
def sgX : Config := .obj [("assigned_to", .str "x"), ("rules", .arr [.num 1, .num 2])]

/-- The scenario config after an ephemeral-only change (assigned_to y). -/
def sgY : Config := .obj [("assigned_to", .str "y"), ("rules", .arr [.num 1, .num 2])]

/-- The scenario config after a change at the non-ephemeral rules field. -/
def sgZ : Config := .obj [("assigned_to", .str "x"), ("rules", .arr [.num 1, .num 3])]

/-- The ephemeral paths of the securitygroup technology. -/
def sgPaths : List String := Datastore.ephemeral_paths_for_tech "securitygroup"

/-- A securitygroup config whose ephemeral assigned_to field holds a list of
mappings in one order... -/
def cA : Config :=
  .obj [("assigned_to", .arr [.obj [("a", .num 1)], .obj [("b", .num 2)]])]

/-- ...and the same config with that inner list reversed: a configuration
change confined to the ephemeral field. -/
def cB : Config :=
  .obj [("assigned_to", .arr [.obj [("b", .num 2)], .obj [("a", .num 1)]])]

/-- C3 counterexample: cA and cB are different configurations that differ
only at the ephemeral assigned_to field (their ephemeral-stripped forms are
equal), yet their complete hashes are EQUAL - refuting the claim that any
two such configurations have different completeHash values. -/
theorem C3_counterexample_equal_complete_hash :
    cA ≠ cB ∧
    sgPaths.foldl Datastore.deleteStep cA = sgPaths.foldl Datastore.deleteStep cB ∧
    Datastore.durable_hash cA sgPaths = Datastore.durable_hash cB sgPaths ∧
    Datastore.hash_config cA = Datastore.hash_config cB := by
  refine ⟨by decide, by decide, ?_, ?_⟩
  · unfold Datastore.durable_hash
    rw [show sgPaths.foldl Datastore.deleteStep cA = sgPaths.foldl Datastore.deleteStep cB
      by decide]
  · unfold Datastore.hash_config
    rw [show dumps (sub_dict cA) = dumps (sub_dict cB) by decide]

set_option maxRecDepth 10000 in
/-- C3 (amended): changes confined to ephemeral paths leave durable_hash
unchanged - both for any two configurations with equal ephemeral-stripped
forms and for overwriting along a listed ephemeral path - while
completeHash distinguishes ephemeral changes only up to canonical form: in
the spec's securitygroup scenario an assigned_to change flips completeHash
but not durable_hash, and a change at the non-ephemeral rules field flips
both hashes. -/
theorem C3_durable_hash_ephemeral_invariance :
    (∀ (tech : String) (c1 c2 : Config),
        (Datastore.ephemeral_paths_for_tech tech).foldl Datastore.deleteStep c1 =
          (Datastore.ephemeral_paths_for_tech tech).foldl Datastore.deleteStep c2 →
        Datastore.durable_hash c1 (Datastore.ephemeral_paths_for_tech tech) =
          Datastore.durable_hash c2 (Datastore.ephemeral_paths_for_tech tech)) ∧
    (∀ (c v : Config) (p : String) (rest : List String),
        Datastore.durable_hash (setPathAll c (Datastore.splitOnDollar p) v) (p :: rest) =
          Datastore.durable_hash c (p :: rest)) ∧
    (Datastore.durable_hash sgX sgPaths = Datastore.durable_hash sgY sgPaths ∧
     Datastore.hash_config sgX ≠ Datastore.hash_config sgY) ∧
    (Datastore.hash_config sgX ≠ Datastore.hash_config sgZ ∧
     Datastore.durable_hash sgX sgPaths ≠ Datastore.durable_hash sgZ sgPaths) := by
  refine ⟨?_, ?_, ⟨?_, by decide⟩, ⟨by decide, by decide⟩⟩
  · intro tech c1 c2 h
    unfold Datastore.durable_hash
    rw [h]
  · intro c v p rest
    unfold Datastore.durable_hash
    simp only [List.foldl_cons]
    have hstep : Datastore.deleteStep (setPathAll c (Datastore.splitOnDollar p) v) p =
        Datastore.deleteStep c p := by
      unfold Datastore.deleteStep
      rw [delete_set]
      cases hd : deletePath c (Datastore.splitOnDollar p) with
      | some d => simp [hd]
      | none => simp [hd, set_noop c (Datastore.splitOnDollar p) v hd]
    rw [hstep]
  · unfold Datastore.durable_hash
    rw [show sgPaths.foldl Datastore.deleteStep sgX = sgPaths.foldl Datastore.deleteStep sgY
      by decide]

/-- Witness for C3's hypotheses at concrete inputs. -/
theorem C3_durable_hash_ephemeral_invariance_witness :
    sgPaths.foldl Datastore.deleteStep sgX = sgPaths.foldl Datastore.deleteStep sgY ∧
    Datastore.durable_hash sgX sgPaths = Datastore.durable_hash sgY sgPaths := by
  refine ⟨by decide, ?_⟩
  have hx : sgPaths.foldl Datastore.deleteStep sgX = sgPaths.foldl Datastore.deleteStep sgY := by
    decide
  exact C3_durable_hash_ephemeral_invariance.1 "securitygroup" sgX sgY hx

/-- A deletion step whose path is not found leaves the config unchanged. -/
theorem deleteStep_of_none {c : Config} {p : String}
    (h : deletePath c (Datastore.splitOnDollar p) = none) :
    Datastore.deleteStep c p = c := by
  unfold Datastore.deleteStep
  rw [h]

/-- C4: durable_hash never fails on a missing path: the deletion step is a
no-op exactly where dpath deletion reports PathNotFound, and a path missing
at its turn in the loop can be dropped from the list without changing the
result. -/
theorem C4_durable_hash_missing_path_tolerance :
    (∀ (c : Config) (p : String), deletePath c (Datastore.splitOnDollar p) = none →
        Datastore.deleteStep c p = c) ∧
    (∀ (c : Config) (p : String) (paths1 paths2 : List String),
        deletePath (paths1.foldl Datastore.deleteStep c) (Datastore.splitOnDollar p) = none →
        Datastore.durable_hash c (paths1 ++ p :: paths2) =
          Datastore.durable_hash c (paths1 ++ paths2)) := by
  constructor
  · intro c p h
    exact deleteStep_of_none h
  · intro c p paths1 paths2 h
    unfold Datastore.durable_hash
    rw [List.foldl_append, List.foldl_append, List.foldl_cons]
    rw [deleteStep_of_none h]

/-- Witness for C4 at a concrete config missing the declared path. -/
theorem C4_durable_hash_missing_path_tolerance_witness :
    (deletePath (Config.obj [("a", Config.num 1)])
        (Datastore.splitOnDollar "assigned_to") = none ∧
      Datastore.deleteStep (Config.obj [("a", Config.num 1)]) "assigned_to" =
        Config.obj [("a", Config.num 1)]) ∧
    Datastore.durable_hash (Config.obj [("a", Config.num 1)]) ["assigned_to", "a"] =
      Datastore.durable_hash (Config.obj [("a", Config.num 1)]) ["a"] := by
  have h : deletePath (Config.obj [("a", Config.num 1)])
      (Datastore.splitOnDollar "assigned_to") = none := by decide
  refine ⟨⟨h, C4_durable_hash_missing_path_tolerance.1 _ _ h⟩, ?_⟩
  have h2 := C4_durable_hash_missing_path_tolerance.2 (Config.obj [("a", Config.num 1)])
    "assigned_to" [] ["a"] (by simpa using h)
  simpa using h2

/-! ### Claim C6: item resolution -/

theorem get_item_account_missing {technology region account name : String} {db : DB}
    (hacc : db.accounts.find? (fun a => a.name == account) = none) :
    Datastore._get_item technology region account name db = .error (.notFound account) := by
  unfold Datastore._get_item
  rw [hacc]

theorem get_item_multiple {technology region account name : String} {db : DB}
    {acct : AccountRec}
    (hacc : db.accounts.find? (fun a => a.name == account) = some acct)
    (hlen : (matchingItems db technology account region name).length > 1) :
    Datastore._get_item technology region account name db =
      .error (.dataIntegrityViolation technology region account name) := by
  unfold Datastore._get_item
  rw [hacc]
  simp [hlen]

theorem get_item_single {technology region account name : String} {db : DB}
    {acct : AccountRec} {i : ItemRec}
    (hacc : db.accounts.find? (fun a => a.name == account) = some acct)
    (hm : matchingItems db technology account region name = [i]) :
    Datastore._get_item technology region account name db = .ok (i, db) := by
  unfold Datastore._get_item
  rw [hacc, hm]
  simp

theorem get_item_empty_some {technology region account name : String} {db : DB}
    {acct : AccountRec} {tr : TechnologyRec}
    (hacc : db.accounts.find? (fun a => a.name == account) = some acct)
    (hm : matchingItems db technology account region name = [])
    (htech : db.technologies.find? (fun t => t.name == technology) = some tr) :
    Datastore._get_item technology region account name db =
      .ok (newItemRec db.next_item_id tr.id acct.id region name, db) := by
  unfold Datastore._get_item
  rw [hacc, hm, htech]
  simp

theorem get_item_empty_none {technology region account name : String} {db : DB}
    {acct : AccountRec}
    (hacc : db.accounts.find? (fun a => a.name == account) = some acct)
    (hm : matchingItems db technology account region name = [])
    (htech : db.technologies.find? (fun t => t.name == technology) = none) :
    Datastore._get_item technology region account name db =
      .ok (newItemRec db.next_item_id db.next_tech_id acct.id region name,
        { db with technologies := db.technologies ++ [⟨db.next_tech_id, technology⟩],
                  next_tech_id := db.next_tech_id + 1 }) := by
  unfold Datastore._get_item
  rw [hacc, hm, htech]
  simp

/-- Every run of _get_item falls in exactly one of the five documented
outcomes. -/
theorem get_item_cases (technology region account name : String) (db : DB) :
    (db.accounts.find? (fun a => a.name == account) = none ∧
      Datastore._get_item technology region account name db = .error (.notFound account)) ∨
    (∃ acct, db.accounts.find? (fun a => a.name == account) = some acct ∧
      (matchingItems db technology account region name).length > 1 ∧
      Datastore._get_item technology region account name db =
        .error (.dataIntegrityViolation technology region account name)) ∨
    (∃ acct i, db.accounts.find? (fun a => a.name == account) = some acct ∧
      matchingItems db technology account region name = [i] ∧
      Datastore._get_item technology region account name db = .ok (i, db)) ∨
    (∃ acct tr, db.accounts.find? (fun a => a.name == account) = some acct ∧
      matchingItems db technology account region name = [] ∧
      db.technologies.find? (fun t => t.name == technology) = some tr ∧
      Datastore._get_item technology region account name db =
        .ok (newItemRec db.next_item_id tr.id acct.id region name, db)) ∨
    (∃ acct, db.accounts.find? (fun a => a.name == account) = some acct ∧
      matchingItems db technology account region name = [] ∧
      db.technologies.find? (fun t => t.name == technology) = none ∧
      Datastore._get_item technology region account name db =
        .ok (newItemRec db.next_item_id db.next_tech_id acct.id region name,
          { db with technologies := db.technologies ++ [⟨db.next_tech_id, technology⟩],
                    next_tech_id := db.next_tech_id + 1 })) := by
  cases hacc : db.accounts.find? (fun a => a.name == account) with
  | none => exact Or.inl ⟨rfl, get_item_account_missing hacc⟩
  | some acct =>
      by_cases hlen : (matchingItems db technology account region name).length > 1
      · exact Or.inr (Or.inl ⟨acct, rfl, hlen, get_item_multiple hacc hlen⟩)
      · cases hm : matchingItems db technology account region name with
        | nil =>
            cases htech : db.technologies.find? (fun t => t.name == technology) with
            | some tr =>
                exact Or.inr (Or.inr (Or.inr (Or.inl
                  ⟨acct, tr, rfl, rfl, rfl, get_item_empty_some hacc hm htech⟩)))
            | none =>
                exact Or.inr (Or.inr (Or.inr (Or.inr
                  ⟨acct, rfl, rfl, rfl, get_item_empty_none hacc hm htech⟩)))
        | cons i rest =>
            cases rest with
            | nil => exact Or.inr (Or.inr (Or.inl ⟨acct, i, rfl, rfl, get_item_single hacc hm⟩))
            | cons j rest2 =>
                exact absurd (by rw [hm]; simp [List.length_cons]) hlen

/-- C6: item resolution fails with NotFound exactly when the named account
is absent; fails with DataIntegrityViolation exactly when the identity tuple
matches more than one stored item; a unique match is returned as stored; and
zero matches yield a fresh unsaved item bound to the technology row, which
is created (and committed) when the kind is seen for the first time. -/
theorem C6_item_resolution (technology region account name : String) (db : DB) :
    (db.accounts.find? (fun a => a.name == account) = none ↔
      Datastore._get_item technology region account name db = .error (.notFound account)) ∧
    (Datastore._get_item technology region account name db =
        .error (.dataIntegrityViolation technology region account name) ↔
      (∃ acct, db.accounts.find? (fun a => a.name == account) = some acct) ∧
        (matchingItems db technology account region name).length > 1) ∧
    (∀ acct, db.accounts.find? (fun a => a.name == account) = some acct →
      (∀ i, matchingItems db technology account region name = [i] →
        Datastore._get_item technology region account name db = .ok (i, db)) ∧
      (matchingItems db technology account region name = [] →
        (∀ tr, db.technologies.find? (fun t => t.name == technology) = some tr →
          Datastore._get_item technology region account name db =
            .ok (newItemRec db.next_item_id tr.id acct.id region name, db)) ∧
        (db.technologies.find? (fun t => t.name == technology) = none →
          Datastore._get_item technology region account name db =
            .ok (newItemRec db.next_item_id db.next_tech_id acct.id region name,
              { db with technologies := db.technologies ++ [⟨db.next_tech_id, technology⟩],
                        next_tech_id := db.next_tech_id + 1 })))) := by
  refine ⟨⟨fun h => get_item_account_missing h, fun h => ?_⟩, ⟨fun h => ?_, fun h => ?_⟩, ?_⟩
  · rcases get_item_cases technology region account name db with
      ⟨h1, _⟩ | ⟨acct, _, _, hr⟩ | ⟨acct, i, _, _, hr⟩ | ⟨acct, tr, _, _, _, hr⟩ |
      ⟨acct, _, _, _, hr⟩
    · exact h1
    all_goals rw [hr] at h; all_goals simp at h
  · rcases get_item_cases technology region account name db with
      ⟨_, hr⟩ | ⟨acct, ha, hl, hr⟩ | ⟨acct, i, _, _, hr⟩ | ⟨acct, tr, _, _, _, hr⟩ |
      ⟨acct, _, _, _, hr⟩
    · rw [hr] at h; simp at h
    · exact ⟨⟨acct, ha⟩, hl⟩
    all_goals rw [hr] at h; all_goals simp at h
  · rcases h with ⟨⟨acct, ha⟩, hl⟩
    exact get_item_multiple ha hl
  · intro acct ha
    exact ⟨fun i hm => get_item_single ha hm,
      fun hm => ⟨fun tr ht => get_item_empty_some ha hm ht,
                 fun ht => get_item_empty_none ha hm ht⟩⟩

/-- A one-account, one-technology, one-item fixture. -/
def wAcct : AccountRec := ⟨1, "acct1", true⟩

/-- The fixture's technology row. -/
def wTech : TechnologyRec := ⟨1, "securitygroup"⟩

/-- The fixture's stored item. -/
def wItem : ItemRec := ⟨1, "us-east-1", "web-sg", none, none, none, 1, 1, none⟩

/-- The fixture database. -/
def wDB : DB := ⟨[wAcct], [wTech], [wItem], [], [], [], 2, 1, 1, 2, 1⟩

/-- Witness for C6: in the fixture the unique matching item is returned. -/
theorem C6_item_resolution_witness :
    wDB.accounts.find? (fun a => a.name == "acct1") = some wAcct ∧
    matchingItems wDB "securitygroup" "acct1" "us-east-1" "web-sg" = [wItem] ∧
    Datastore._get_item "securitygroup" "us-east-1" "acct1" "web-sg" wDB = .ok (wItem, wDB) := by
  have h1 : wDB.accounts.find? (fun a => a.name == "acct1") = some wAcct := by decide
  have h2 : matchingItems wDB "securitygroup" "acct1" "us-east-1" "web-sg" = [wItem] := by
    decide
  exact ⟨h1, h2,
    ((C6_item_resolution "securitygroup" "us-east-1" "acct1" "web-sg" wDB).2.2 wAcct h1).1
      wItem h2⟩

/-! ### Claim C1: revision semantics of store -/

theorem storeItem_id (item0 : ItemRec) (arn : Option String) (config : Config)
    (ctype : String) : (Datastore.storeItem item0 arn config ctype).id = item0.id := by
  unfold Datastore.storeItem
  by_cases h : optStrTruthy arn = true <;> simp [h]

theorem storeItem_arn_falsy (item0 : ItemRec) (arn : Option String) (config : Config)
    (ctype : String) (h : optStrTruthy arn = false) :
    (Datastore.storeItem item0 arn config ctype).arn = item0.arn := by
  unfold Datastore.storeItem
  simp [h]

theorem store_unfold {ctype region account name : String} {active_flag : Bool}
    {config : Config} {arn : Option String} {new_issues : List NewIssue}
    {ephemeral : Bool} {now : Nat} {db db1 : DB} {item0 : ItemRec}
    (hget : Datastore._get_item ctype region account name db = .ok (item0, db1)) :
    Datastore.store ctype region account name active_flag config arn new_issues
        ephemeral now db =
      match storeRevision ephemeral active_flag config now
          (Datastore.storeItem item0 arn config ctype).id db1 with
      | .error e => .error e
      | .ok db2 =>
          Datastore._set_latest_revision (Datastore.storeItem item0 arn config ctype).id
            (upsertItem (Datastore.storeItem item0 arn config ctype)
              (reconcileIssues (Datastore.storeItem item0 arn config ctype).id new_issues db2)) := by
  unfold Datastore.store
  rw [hget]

theorem storeRevision_ephemeral (active_flag : Bool) (config : Config) (now i : Nat)
    {db : DB} {rev : ItemRevisionRec} (hrev : latestRevisionOf db i = some rev) :
    storeRevision true active_flag config now i db =
      .ok { db with revisions := db.revisions.map (fun r =>
        if r.id == rev.id then
          { rev with config := config, date_last_ephemeral_change := some now }
        else r) } := by
  unfold storeRevision
  rw [if_pos rfl, hrev]

theorem storeRevision_append (active_flag : Bool) (config : Config) (now i : Nat)
    (db : DB) :
    storeRevision false active_flag config now i db =
      .ok { db with
              revisions := db.revisions ++
                [⟨db.next_revision_id, active_flag, config, now, none, i⟩],
              next_revision_id := db.next_revision_id + 1 } := by
  unfold storeRevision
  simp

theorem set_latest_ok {i : Nat} {db : DB} {lr : ItemRevisionRec}
    (h : latestRevisionOf db i = some lr) :
    Datastore._set_latest_revision i db =
      .ok { db with items := db.items.map (fun j =>
        if j.id == i then { j with latest_revision_id := some lr.id } else j) } := by
  unfold Datastore._set_latest_revision
  rw [h]

theorem reconcile_revisions (i : Nat) (ni : List NewIssue) (db : DB) :
    (reconcileIssues i ni db).revisions = db.revisions := rfl

theorem upsert_revisions (item : ItemRec) (db : DB) :
    (upsertItem item db).revisions = db.revisions := by
  unfold upsertItem
  by_cases h : db.items.any (fun j => j.id == item.id) = true <;> simp [h]

theorem upsert_issues (item : ItemRec) (db : DB) :
    (upsertItem item db).issues = db.issues := by
  unfold upsertItem
  by_cases h : db.items.any (fun j => j.id == item.id) = true <;> simp [h]

theorem revisionsOf_ext {dbA dbB : DB} (h : dbA.revisions = dbB.revisions) (i : Nat) :
    revisionsOf dbA i = revisionsOf dbB i := by
  unfold revisionsOf
  rw [h]

theorem latestRevisionOf_ext {dbA dbB : DB} (h : dbA.revisions = dbB.revisions) (i : Nat) :
    latestRevisionOf dbA i = latestRevisionOf dbB i := by
  unfold latestRevisionOf
  rw [revisionsOf_ext h]

theorem foldl_pickLater_some : ∀ (l : List ItemRevisionRec) (b : ItemRevisionRec),
    ∃ r, l.foldl pickLater (some b) = some r
  | [], b => ⟨b, rfl⟩
  | x :: xs, b => by
      rw [List.foldl_cons]
      rw [show pickLater (some b) x = if laterRev b x then some x else some b from rfl]
      by_cases h : laterRev b x = true
      · rw [if_pos h]; exact foldl_pickLater_some xs x
      · rw [if_neg h]; exact foldl_pickLater_some xs b

theorem latestRevisionOf_isSome {db : DB} {i : Nat} (h : revisionsOf db i ≠ []) :
    ∃ r, latestRevisionOf db i = some r := by
  unfold latestRevisionOf
  cases hl : revisionsOf db i with
  | nil => exact absurd hl h
  | cons x xs =>
      rw [List.foldl_cons]
      exact foldl_pickLater_some xs x

theorem foldl_pickLater_mem : ∀ (l : List ItemRevisionRec) (acc : Option ItemRevisionRec)
    (r : ItemRevisionRec), l.foldl pickLater acc = some r → acc = some r ∨ r ∈ l
  | [], _, _ => fun h => Or.inl h
  | x :: xs, acc, r => fun h => by
      rw [List.foldl_cons] at h
      rcases foldl_pickLater_mem xs (pickLater acc x) r h with h1 | h1
      · cases acc with
        | none =>
            rw [show pickLater none x = some x from rfl] at h1
            exact Or.inr (by rw [← Option.some.inj h1]; exact List.mem_cons_self x xs)
        | some b =>
            rw [show pickLater (some b) x = if laterRev b x then some x else some b
              from rfl] at h1
            by_cases hl : laterRev b x = true
            · rw [if_pos hl] at h1
              exact Or.inr (by rw [← Option.some.inj h1]; exact List.mem_cons_self x xs)
            · rw [if_neg hl] at h1
              exact Or.inl h1
      · exact Or.inr (List.mem_cons_of_mem x h1)

theorem latestRevisionOf_mem {db : DB} {i : Nat} {r : ItemRevisionRec}
    (h : latestRevisionOf db i = some r) : r ∈ db.revisions ∧ r.item_id = i := by
  unfold latestRevisionOf at h
  rcases foldl_pickLater_mem _ none r h with h1 | h1
  · exact absurd h1 (by simp)
  · unfold revisionsOf at h1
    have hm := List.mem_filter.mp h1
    exact ⟨hm.1, by simpa using hm.2⟩

theorem length_filter_map_eq {α : Type} (f : α → α) (p : α → Bool) (l : List α)
    (h : ∀ x ∈ l, p (f x) = p x) : ((l.map f).filter p).length = (l.filter p).length := by
  induction l with
  | nil => rfl
  | cons x xs ih =>
      have ih' := ih (fun y hy => h y (List.mem_cons_of_mem x hy))
      simp only [List.map_cons, List.filter_cons, h x (List.mem_cons_self x xs)]
      cases hp : p x with
      | true => simp [ih']
      | false => simp [ih']

theorem store_unfold2 {ctype region account name : String} {active_flag : Bool}
    {config : Config} {arn : Option String} {new_issues : List NewIssue}
    {ephemeral : Bool} {now : Nat} {db db1 db2 : DB} {item0 : ItemRec}
    (hget : Datastore._get_item ctype region account name db = .ok (item0, db1))
    (hsrev : storeRevision ephemeral active_flag config now item0.id db1 = .ok db2) :
    Datastore.store ctype region account name active_flag config arn new_issues
        ephemeral now db =
      Datastore._set_latest_revision item0.id
        (upsertItem (Datastore.storeItem item0 arn config ctype)
          (reconcileIssues item0.id new_issues db2)) := by
  rw [store_unfold hget, storeItem_id, hsrev]

theorem store_ok {ctype region account name : String} {active_flag : Bool}
    {config : Config} {arn : Option String} {new_issues : List NewIssue}
    {ephemeral : Bool} {now : Nat} {db db1 db2 : DB} {item0 : ItemRec}
    (hget : Datastore._get_item ctype region account name db = .ok (item0, db1))
    (hsrev : storeRevision ephemeral active_flag config now item0.id db1 = .ok db2)
    (hne : revisionsOf db2 item0.id ≠ []) :
    ∃ lr, latestRevisionOf db2 item0.id = some lr ∧
      Datastore.store ctype region account name active_flag config arn new_issues
          ephemeral now db =
        .ok { upsertItem (Datastore.storeItem item0 arn config ctype)
                (reconcileIssues item0.id new_issues db2) with
              items := (upsertItem (Datastore.storeItem item0 arn config ctype)
                (reconcileIssues item0.id new_issues db2)).items.map (fun j =>
                  if j.id == item0.id then { j with latest_revision_id := some lr.id }
                  else j) } := by
  obtain ⟨lr, hlr⟩ := latestRevisionOf_isSome hne
  have hrev4 : (upsertItem (Datastore.storeItem item0 arn config ctype)
      (reconcileIssues item0.id new_issues db2)).revisions = db2.revisions := by
    rw [upsert_revisions, reconcile_revisions]
  refine ⟨lr, hlr, ?_⟩
  rw [store_unfold2 hget hsrev]
  rw [set_latest_ok (by rw [latestRevisionOf_ext hrev4]; exact hlr)]

set_option maxHeartbeats 1000000 in
/-- C1: for an item that already has at least one revision, store with
ephemeral set overwrites the most recent revision's config payload and its
last-ephemeral-change timestamp in place, leaving the item's revision count
unchanged; store with ephemeral unset always appends a new revision carrying
the given active flag and config, increasing the count by exactly one. -/
theorem C1_store_revision_count
    (ctype region account name : String) (active_flag : Bool) (config : Config)
    (arn : Option String) (new_issues : List NewIssue) (now : Nat)
    (db db1 : DB) (item0 : ItemRec)
    (hget : Datastore._get_item ctype region account name db = .ok (item0, db1)) :
    (∀ rev, latestRevisionOf db1 item0.id = some rev →
      (∀ x ∈ db1.revisions, x.id = rev.id → x = rev) →
      ∃ db', Datastore.store ctype region account name active_flag config arn new_issues
          true now db = .ok db' ∧
        db'.revisions = db1.revisions.map (fun r =>
          if r.id == rev.id then
            { rev with config := config, date_last_ephemeral_change := some now }
          else r) ∧
        revCount db' item0.id = revCount db1 item0.id) ∧
    (∃ db', Datastore.store ctype region account name active_flag config arn new_issues
        false now db = .ok db' ∧
      db'.revisions = db1.revisions ++
        [⟨db1.next_revision_id, active_flag, config, now, none, item0.id⟩] ∧
      revCount db' item0.id = revCount db1 item0.id + 1) := by
  constructor
  · intro rev hrev hids
    have hsrev := storeRevision_ephemeral active_flag config now item0.id hrev
    have hmem := latestRevisionOf_mem hrev
    have hne : revisionsOf
        { db1 with revisions := db1.revisions.map (fun r =>
            if r.id == rev.id then
              { rev with config := config, date_last_ephemeral_change := some now }
            else r) } item0.id ≠ [] := by
      unfold revisionsOf
      apply List.ne_nil_of_mem (a :=
        { rev with config := config, date_last_ephemeral_change := some now })
      rw [List.mem_filter]
      constructor
      · exact List.mem_map.mpr ⟨rev, hmem.1, by simp⟩
      · simp [hmem.2]
    obtain ⟨lr, hlr, hstore⟩ := store_ok hget hsrev hne
    have hrevs : ∀ db' , Datastore.store ctype region account name active_flag config arn
        new_issues true now db = .ok db' →
        db'.revisions = db1.revisions.map (fun r =>
          if r.id == rev.id then
            { rev with config := config, date_last_ephemeral_change := some now }
          else r) := by
      intro db' h
      rw [hstore] at h
      rw [← Except.ok.inj h]
      rw [upsert_revisions, reconcile_revisions]
    refine ⟨_, hstore, hrevs _ hstore, ?_⟩
    unfold revCount revisionsOf
    rw [hrevs _ hstore]
    apply length_filter_map_eq
    intro x hx
    by_cases hxid : (x.id == rev.id) = true
    · have hxr : x = rev := hids x hx (by simpa using hxid)
      subst hxr
      simp
    · simp [hxid]
  · have hsrev := storeRevision_append active_flag config now item0.id db1
    have hne : revisionsOf
        { db1 with
            revisions := db1.revisions ++
              [⟨db1.next_revision_id, active_flag, config, now, none, item0.id⟩],
            next_revision_id := db1.next_revision_id + 1 } item0.id ≠ [] := by
      unfold revisionsOf
      apply List.ne_nil_of_mem
        (a := (⟨db1.next_revision_id, active_flag, config, now, none, item0.id⟩ :
          ItemRevisionRec))
      rw [List.mem_filter]
      exact ⟨List.mem_append_right _ (List.mem_singleton.mpr rfl), by simp⟩
    obtain ⟨lr, hlr, hstore⟩ := store_ok hget hsrev hne
    have hrevs : ∀ db', Datastore.store ctype region account name active_flag config arn
        new_issues false now db = .ok db' →
        db'.revisions = db1.revisions ++
          [⟨db1.next_revision_id, active_flag, config, now, none, item0.id⟩] := by
      intro db' h
      rw [hstore] at h
      rw [← Except.ok.inj h]
      rw [upsert_revisions, reconcile_revisions]
    refine ⟨_, hstore, hrevs _ hstore, ?_⟩
    unfold revCount revisionsOf
    rw [hrevs _ hstore, List.filter_append]
    simp

/-! ### Claim C10: a falsy arn argument never clears the stored ARN -/

theorem store_unfold_err {ctype region account name : String} {active_flag : Bool}
    {config : Config} {arn : Option String} {new_issues : List NewIssue}
    {ephemeral : Bool} {now : Nat} {db db1 : DB} {item0 : ItemRec} {e : DSErr}
    (hget : Datastore._get_item ctype region account name db = .ok (item0, db1))
    (hsrev : storeRevision ephemeral active_flag config now item0.id db1 = .error e) :
    Datastore.store ctype region account name active_flag config arn new_issues
        ephemeral now db = .error e := by
  rw [store_unfold hget, storeItem_id, hsrev]

theorem storeRevision_items {eph active_flag : Bool} {config : Config} {now i : Nat}
    {db db2 : DB} (h : storeRevision eph active_flag config now i db = .ok db2) :
    db2.items = db.items := by
  unfold storeRevision at h
  split at h
  · split at h
    · simp at h
    · rw [← Except.ok.inj h]
  · rw [← Except.ok.inj h]

theorem store_ok_inv {ctype region account name : String} {active_flag : Bool}
    {config : Config} {arn : Option String} {new_issues : List NewIssue}
    {ephemeral : Bool} {now : Nat} {db db1 db' : DB} {item0 : ItemRec}
    (hget : Datastore._get_item ctype region account name db = .ok (item0, db1))
    (hstore : Datastore.store ctype region account name active_flag config arn new_issues
        ephemeral now db = .ok db') :
    ∃ db2 lr, storeRevision ephemeral active_flag config now item0.id db1 = .ok db2 ∧
      latestRevisionOf (upsertItem (Datastore.storeItem item0 arn config ctype)
        (reconcileIssues item0.id new_issues db2)) item0.id = some lr ∧
      db' = { upsertItem (Datastore.storeItem item0 arn config ctype)
                (reconcileIssues item0.id new_issues db2) with
              items := (upsertItem (Datastore.storeItem item0 arn config ctype)
                (reconcileIssues item0.id new_issues db2)).items.map (fun j =>
                  if j.id == item0.id then { j with latest_revision_id := some lr.id }
                  else j) } := by
  cases hsrev : storeRevision ephemeral active_flag config now item0.id db1 with
  | error e =>
      rw [store_unfold_err hget hsrev] at hstore
      simp at hstore
  | ok db2 =>
      rw [store_unfold2 hget hsrev] at hstore
      cases hlr : latestRevisionOf (upsertItem (Datastore.storeItem item0 arn config ctype)
          (reconcileIssues item0.id new_issues db2)) item0.id with
      | none =>
          unfold Datastore._set_latest_revision at hstore
          rw [hlr] at hstore
          simp at hstore
      | some lr =>
          rw [set_latest_ok hlr] at hstore
          exact ⟨db2, lr, rfl, hlr, (Except.ok.inj hstore).symm⟩

theorem reconcile_items (i : Nat) (ni : List NewIssue) (db : DB) :
    (reconcileIssues i ni db).items = db.items := rfl

theorem mem_upsert_items {item j : ItemRec} {db : DB}
    (hj : j ∈ (upsertItem item db).items) :
    j = item ∨ (j ∈ db.items ∧ (j.id == item.id) = false) := by
  unfold upsertItem at hj
  by_cases h : db.items.any (fun k => k.id == item.id) = true
  · rw [if_pos h] at hj
    rcases List.mem_map.mp hj with ⟨y, hy, hfy⟩
    by_cases hid : (y.id == item.id) = true
    · rw [if_pos hid] at hfy
      exact Or.inl hfy.symm
    · rw [if_neg hid] at hfy
      exact Or.inr ⟨hfy ▸ hy, by rw [← hfy]; exact Bool.eq_false_iff.mpr hid⟩
  · rw [if_neg h] at hj
    rcases List.mem_append.mp hj with hy | hy
    · refine Or.inr ⟨hy, ?_⟩
      have hall : db.items.any (fun k => k.id == item.id) = false := Bool.eq_false_iff.mpr h
      rw [List.any_eq_false] at hall
      exact Bool.eq_false_iff.mpr (hall j hy)
    · exact Or.inl (List.mem_singleton.mp hy)

/-- C10: when the arn argument is falsy (None or the empty string), store
leaves the arn of every row bearing the resolved item's id unchanged - an
ARN can never be cleared through store. -/
theorem C10_store_arn_not_cleared {ctype region account name : String}
    {active_flag : Bool} {config : Config} {arn : Option String}
    {new_issues : List NewIssue} {ephemeral : Bool} {now : Nat} {db db1 db' : DB}
    {item0 : ItemRec}
    (hget : Datastore._get_item ctype region account name db = .ok (item0, db1))
    (harn : optStrTruthy arn = false)
    (hstore : Datastore.store ctype region account name active_flag config arn new_issues
        ephemeral now db = .ok db') :
    ∀ j ∈ db'.items, j.id = item0.id → j.arn = item0.arn := by
  obtain ⟨db2, lr, hsrev, hlr, hdb'⟩ := store_ok_inv hget hstore
  subst hdb'
  intro j hj hjid
  rcases List.mem_map.mp hj with ⟨x, hx, hgx⟩
  have hxarn : (if x.id == item0.id then { x with latest_revision_id := some lr.id }
      else x).arn = x.arn := by
    by_cases hxi : (x.id == item0.id) = true
    · rw [if_pos hxi]
    · rw [if_neg hxi]
  have hxid : (if x.id == item0.id then { x with latest_revision_id := some lr.id }
      else x).id = x.id := by
    by_cases hxi : (x.id == item0.id) = true
    · rw [if_pos hxi]
    · rw [if_neg hxi]
  rw [← hgx] at hjid ⊢
  rw [hxarn]
  rw [hxid] at hjid
  rcases mem_upsert_items hx with hxe | ⟨_, hxne⟩
  · rw [hxe]
    exact storeItem_arn_falsy item0 arn config ctype harn
  · exfalso
    rw [storeItem_id, hjid] at hxne
    simp at hxne

/-- A fixture revision for the stateful witnesses. -/
def wRev : ItemRevisionRec := ⟨1, true, Config.null, 10, none, 1⟩

/-- The fixture database with one stored revision. -/
def wDB2 : DB := ⟨[wAcct], [wTech], [wItem], [wRev], [], [], 2, 2, 1, 2, 1⟩

/-- A concrete store call for the witnesses. -/
def wStore : Except DSErr DB :=
  Datastore.store "securitygroup" "us-east-1" "acct1" "web-sg" true Config.null none []
    false 11 wDB2

/-- Witness for C10 at a concrete store call with arn omitted. -/
theorem C10_store_arn_not_cleared_witness :
    optStrTruthy (none : Option String) = false ∧
    wStore.map (fun db' => db'.items.all (fun j => j.id != wItem.id || j.arn == wItem.arn)) =
      .ok true := by
  have hget : Datastore._get_item "securitygroup" "us-east-1" "acct1" "web-sg" wDB2 =
      .ok (wItem, wDB2) := by rfl
  have hsrev := storeRevision_append true Config.null 11 wItem.id wDB2
  have hne : revisionsOf
      { wDB2 with
          revisions := wDB2.revisions ++
            [⟨wDB2.next_revision_id, true, Config.null, 11, none, wItem.id⟩],
          next_revision_id := wDB2.next_revision_id + 1 } wItem.id ≠ [] := by decide
  obtain ⟨lr, hlr, hstore⟩ := store_ok hget hsrev hne
  have hconc := C10_store_arn_not_cleared hget
    (show optStrTruthy (none : Option String) = false from rfl) hstore
  refine ⟨rfl, ?_⟩
  unfold wStore
  rw [hstore]
  simp only [Except.map]
  refine congrArg Except.ok (List.all_eq_true.mpr ?_)
  intro j hj
  by_cases hid : (j.id == wItem.id) = true
  · have harn := hconc j hj (by simpa using hid)
    simp [harn]
  · simp [bne, hid]

/-- Witness for C1 on the one-revision fixture. -/
theorem C1_store_revision_count_witness :
    Datastore._get_item "securitygroup" "us-east-1" "acct1" "web-sg" wDB2 =
      .ok (wItem, wDB2) ∧
    latestRevisionOf wDB2 wItem.id = some wRev ∧
    (∃ db', Datastore.store "securitygroup" "us-east-1" "acct1" "web-sg" true Config.null
        none [] true 11 wDB2 = .ok db' ∧
      db'.revisions = wDB2.revisions.map (fun r =>
        if r.id == wRev.id then
          { wRev with config := Config.null, date_last_ephemeral_change := some 11 }
        else r) ∧
      revCount db' wItem.id = revCount wDB2 wItem.id) ∧
    (∃ db', Datastore.store "securitygroup" "us-east-1" "acct1" "web-sg" true Config.null
        none [] false 11 wDB2 = .ok db' ∧
      db'.revisions = wDB2.revisions ++
        [⟨wDB2.next_revision_id, true, Config.null, 11, none, wItem.id⟩] ∧
      revCount db' wItem.id = revCount wDB2 wItem.id + 1) := by
  have hget : Datastore._get_item "securitygroup" "us-east-1" "acct1" "web-sg" wDB2 =
      .ok (wItem, wDB2) := by rfl
  have hrev : latestRevisionOf wDB2 wItem.id = some wRev := by rfl
  have hids : ∀ x ∈ wDB2.revisions, x.id = wRev.id → x = wRev := by decide
  have hthm := C1_store_revision_count "securitygroup" "us-east-1" "acct1" "web-sg" true
    Config.null none [] 11 wDB2 wDB2 wItem hget
  exact ⟨hget, hrev, hthm.1 wRev hrev hids, hthm.2⟩

/-! ### Claim C5: issue reconciliation -/

theorem storeRevision_issues {eph active_flag : Bool} {config : Config} {now i : Nat}
    {db db2 : DB} (h : storeRevision eph active_flag config now i db = .ok db2) :
    db2.issues = db.issues ∧ db2.next_issue_id = db.next_issue_id := by
  unfold storeRevision at h
  split at h
  · split at h
    · simp at h
    · rw [← Except.ok.inj h]; exact ⟨rfl, rfl⟩
  · rw [← Except.ok.inj h]; exact ⟨rfl, rfl⟩

theorem itemIssues_ext {dbA dbB : DB} (h : dbA.issues = dbB.issues) (i : Nat) :
    itemIssues dbA i = itemIssues dbB i := by
  unfold itemIssues
  rw [h]

theorem mem_itemIssues {db : DB} {i : Nat} {x : ItemAuditRec} :
    x ∈ itemIssues db i ↔ x ∈ db.issues ∧ x.item_id = i := by
  unfold itemIssues
  rw [List.mem_filter]
  simp

theorem addNewIssues_split (i : Nat) : ∀ (new : List NewIssue) (cur : List ItemAuditRec)
    (nid : Nat), ∃ added, (addNewIssues i (cur, nid) new).1 = cur ++ added ∧
      ∀ x ∈ added, x.item_id = i ∧ ∃ ni ∈ new, x.issue = ni.issue ∧ x.notes = ni.notes ∧
        x.score = ni.score ∧ x.justified = ni.justified ∧ x.justification = ni.justification
  | [], cur, nid => ⟨[], by rw [addNewIssues]; simp, by simp⟩
  | ni :: rest, cur, nid => by
      rw [addNewIssues]
      by_cases hc : ((cur.map auditKey).contains (niKey ni)) = true
      · rw [if_pos hc]
        obtain ⟨added, h1, h2⟩ := addNewIssues_split i rest cur nid
        refine ⟨added, h1, fun x hx => ?_⟩
        obtain ⟨hi, ni', hni', hp⟩ := h2 x hx
        exact ⟨hi, ni', List.mem_cons_of_mem ni hni', hp⟩
      · rw [if_neg hc]
        obtain ⟨added, h1, h2⟩ :=
          addNewIssues_split i rest (cur ++ [mkAudit nid i ni]) (nid + 1)
        refine ⟨mkAudit nid i ni :: added, ?_, ?_⟩
        · rw [h1, List.append_assoc, List.singleton_append]
        · intro x hx
          rcases List.mem_cons.mp hx with hx1 | hx1
          · subst hx1
            exact ⟨rfl, ni, List.mem_cons_self ni rest, rfl, rfl, rfl, rfl, rfl⟩
          · obtain ⟨hi, ni', hni', hp⟩ := h2 x hx1
            exact ⟨hi, ni', List.mem_cons_of_mem ni hni', hp⟩

theorem addNewIssues_keys (i : Nat) : ∀ (new : List NewIssue) (cur : List ItemAuditRec)
    (nid : Nat) (k : String),
    (∃ x ∈ (addNewIssues i (cur, nid) new).1, auditKey x = k) ↔
      ((∃ x ∈ cur, auditKey x = k) ∨ ∃ ni ∈ new, niKey ni = k)
  | [], cur, nid, k => by
      rw [addNewIssues]
      simp
  | ni :: rest, cur, nid, k => by
      rw [addNewIssues]
      by_cases hc : ((cur.map auditKey).contains (niKey ni)) = true
      · rw [if_pos hc, addNewIssues_keys i rest cur nid k]
        have hcm : niKey ni ∈ cur.map auditKey := List.elem_iff.mp hc
        obtain ⟨x0, hx0, hk0⟩ := List.mem_map.mp hcm
        constructor
        · rintro (h | h)
          · exact Or.inl h
          · rcases h with ⟨ni', hni', hk⟩
            exact Or.inr ⟨ni', List.mem_cons_of_mem ni hni', hk⟩
        · rintro (h | ⟨ni', hni', hk⟩)
          · exact Or.inl h
          · rcases List.mem_cons.mp hni' with h1 | h1
            · subst h1
              exact Or.inl ⟨x0, hx0, by rw [hk0, hk]⟩
            · exact Or.inr ⟨ni', h1, hk⟩
      · rw [if_neg hc, addNewIssues_keys i rest (cur ++ [mkAudit nid i ni]) (nid + 1) k]
        constructor
        · rintro (⟨x, hx, hk⟩ | ⟨ni', hni', hk⟩)
          · rcases List.mem_append.mp hx with h1 | h1
            · exact Or.inl ⟨x, h1, hk⟩
            · have hx1 : x = mkAudit nid i ni := List.mem_singleton.mp h1
              subst hx1
              exact Or.inr ⟨ni, List.mem_cons_self ni rest, hk⟩
          · exact Or.inr ⟨ni', List.mem_cons_of_mem ni hni', hk⟩
        · rintro (⟨x, hx, hk⟩ | ⟨ni', hni', hk⟩)
          · exact Or.inl ⟨x, List.mem_append_left _ hx, hk⟩
          · rcases List.mem_cons.mp hni' with h1 | h1
            · subst h1
              exact Or.inl ⟨mkAudit nid i ni',
                List.mem_append_right _ (List.mem_singleton.mpr rfl), hk⟩
            · exact Or.inr ⟨ni', h1, hk⟩

theorem reconcile_itemIssues (i : Nat) (new : List NewIssue) (db : DB) :
    itemIssues (reconcileIssues i new db) i =
      (addNewIssues i (itemIssues db i, db.next_issue_id) new).1.filter
        (fun oi => (new.map niKey).contains (auditKey oi)) := by
  obtain ⟨added, hsplit, hprops⟩ :=
    addNewIssues_split i new (itemIssues db i) db.next_issue_id
  rw [show itemIssues (reconcileIssues i new db) i =
      ((db.issues.filter (fun oi => oi.item_id != i)) ++
        (addNewIssues i (itemIssues db i, db.next_issue_id) new).1.filter
          (fun oi => (new.map niKey).contains (auditKey oi))).filter
        (fun x => x.item_id == i) from rfl]
  rw [List.filter_append]
  have h1 : (db.issues.filter (fun oi => oi.item_id != i)).filter
      (fun x => x.item_id == i) = [] := by
    rw [List.filter_filter]
    apply List.filter_eq_nil_iff.mpr
    intro a _
    by_cases h : a.item_id = i <;> simp [h]
  have h2 : ((addNewIssues i (itemIssues db i, db.next_issue_id) new).1.filter
      (fun oi => (new.map niKey).contains (auditKey oi))).filter
      (fun x => x.item_id == i) =
      (addNewIssues i (itemIssues db i, db.next_issue_id) new).1.filter
        (fun oi => (new.map niKey).contains (auditKey oi)) := by
    apply List.filter_eq_self.mpr
    intro x hx
    have hx1 := (List.mem_filter.mp hx).1
    rw [hsplit] at hx1
    rcases List.mem_append.mp hx1 with h | h
    · exact (List.mem_filter.mp h).2
    · simp [(hprops x h).1]
  rw [h1, h2, List.nil_append]

theorem reconcile_frame (i : Nat) (new : List NewIssue) (db : DB) :
    ∀ x : ItemAuditRec, x.item_id ≠ i →
      (x ∈ (reconcileIssues i new db).issues ↔ x ∈ db.issues) := by
  intro x hx
  obtain ⟨added, hsplit, hprops⟩ :=
    addNewIssues_split i new (itemIssues db i) db.next_issue_id
  rw [show (reconcileIssues i new db).issues =
      db.issues.filter (fun oi => oi.item_id != i) ++
      (addNewIssues i (itemIssues db i, db.next_issue_id) new).1.filter
        (fun oi => (new.map niKey).contains (auditKey oi)) from rfl]
  rw [List.mem_append]
  constructor
  · rintro (h | h)
    · exact (List.mem_filter.mp h).1
    · exfalso
      have h1 := (List.mem_filter.mp h).1
      rw [hsplit] at h1
      rcases List.mem_append.mp h1 with h2 | h2
      · exact hx (mem_itemIssues.mp h2).2
      · exact hx (hprops x h2).1
  · intro h
    exact Or.inl (List.mem_filter.mpr ⟨h, by simp [hx]⟩)

/-- C5 (amended): after a successful store, the set of formatted identity
keys (issue-type and notes joined with a slash) on the item equals exactly
that of new_issues; previously stored issues whose key occurs among the new
keys are kept as the very same rows (justification state preserved), issues
whose key is absent are deleted, every stored issue is either an old row or
one built from a supplied new issue, and the issues of other items are
untouched. -/
theorem C5_store_issue_reconciliation {ctype region account name : String}
    {active_flag : Bool} {config : Config} {arn : Option String}
    {new_issues : List NewIssue} {ephemeral : Bool} {now : Nat} {db db1 db' : DB}
    {item0 : ItemRec}
    (hget : Datastore._get_item ctype region account name db = .ok (item0, db1))
    (hstore : Datastore.store ctype region account name active_flag config arn new_issues
        ephemeral now db = .ok db') :
    (∀ k, (∃ x ∈ itemIssues db' item0.id, auditKey x = k) ↔
      ∃ ni ∈ new_issues, niKey ni = k) ∧
    (∀ oi ∈ itemIssues db1 item0.id, auditKey oi ∈ new_issues.map niKey →
        oi ∈ itemIssues db' item0.id) ∧
    (∀ oi ∈ itemIssues db1 item0.id, auditKey oi ∉ new_issues.map niKey →
        oi ∉ itemIssues db' item0.id) ∧
    (∀ x ∈ itemIssues db' item0.id, x ∈ itemIssues db1 item0.id ∨
        ∃ ni ∈ new_issues, x.issue = ni.issue ∧ x.notes = ni.notes ∧ x.score = ni.score ∧
          x.justified = ni.justified ∧ x.justification = ni.justification) ∧
    (∀ x : ItemAuditRec, x.item_id ≠ item0.id → (x ∈ db'.issues ↔ x ∈ db1.issues)) := by
  obtain ⟨db2, lr, hsrev, hlr, hdb'⟩ := store_ok_inv hget hstore
  have hiss2 := storeRevision_issues hsrev
  have hiss' : db'.issues = (reconcileIssues item0.id new_issues db2).issues := by
    rw [hdb']
    exact upsert_issues _ _
  have hitem' : itemIssues db' item0.id =
      itemIssues (reconcileIssues item0.id new_issues db2) item0.id :=
    itemIssues_ext hiss' _
  have hitem21 : itemIssues db2 item0.id = itemIssues db1 item0.id :=
    itemIssues_ext hiss2.1 _
  have hrec := reconcile_itemIssues item0.id new_issues db2
  rw [hitem21] at hrec
  rw [hrec] at hitem'
  obtain ⟨added, hsplit, hprops⟩ :=
    addNewIssues_split item0.id new_issues (itemIssues db1 item0.id) db2.next_issue_id
  refine ⟨?_, ?_, ?_, ?_, ?_⟩
  · intro k
    rw [hitem']
    constructor
    · rintro ⟨x, hx, hk⟩
      have h2 := (List.mem_filter.mp hx).2
      obtain ⟨ni, hni, hkey⟩ := List.mem_map.mp (List.elem_iff.mp h2)
      exact ⟨ni, hni, by rw [hkey, hk]⟩
    · rintro ⟨ni, hni, hk⟩
      obtain ⟨x, hxmem, hxk⟩ :=
        (addNewIssues_keys item0.id new_issues (itemIssues db1 item0.id)
          db2.next_issue_id k).mpr (Or.inr ⟨ni, hni, hk⟩)
      refine ⟨x, List.mem_filter.mpr ⟨hxmem, ?_⟩, hxk⟩
      apply List.elem_iff.mpr
      rw [hxk, ← hk]
      exact List.mem_map.mpr ⟨ni, hni, rfl⟩
  · intro oi hoi hkeys
    rw [hitem']
    apply List.mem_filter.mpr
    refine ⟨?_, List.elem_iff.mpr hkeys⟩
    rw [hsplit]
    exact List.mem_append_left _ hoi
  · intro oi _ hkeys
    rw [hitem']
    intro hmem
    exact hkeys (List.elem_iff.mp (List.mem_filter.mp hmem).2)
  · intro x hx
    rw [hitem'] at hx
    have h1 := (List.mem_filter.mp hx).1
    rw [hsplit] at h1
    rcases List.mem_append.mp h1 with h2 | h2
    · exact Or.inl h2
    · obtain ⟨_, ni, hni, hp⟩ := hprops x h2
      exact Or.inr ⟨ni, hni, hp⟩
  · intro x hxid
    rw [hiss', reconcile_frame item0.id new_issues db2 x hxid, hiss2.1]

theorem store_result_issues (item : ItemRec) (db : DB) (f : ItemRec → ItemRec) :
    ({ upsertItem item db with
        items := (upsertItem item db).items.map f }).issues = db.issues :=
  upsert_issues item db

/-- Fixture: an existing stored issue whose issue type itself contains a slash. -/
def wIssue3 : ItemAuditRec := ⟨1, 0, "a/b", "c", false, none, 1⟩

/-- Fixture: a new issue with the slash inside the notes instead. -/
def wNew3 : NewIssue := ⟨0, "a", "b/c", false, none⟩

/-- Fixture database holding wIssue3 on the stored item. -/
def wDB3 : DB := ⟨[wAcct], [wTech], [wItem], [], [wIssue3], [], 2, 1, 2, 2, 1⟩

/-- A concrete store call that replaces the issue set by the single wNew3. -/
def wStore3 : Except DSErr DB :=
  Datastore.store "securitygroup" "us-east-1" "acct1" "web-sg" true Config.null none
    [wNew3] false 11 wDB3

/-- C5 counterexample: the reconciliation key is the single string
issue ++ slash ++ notes, not the pair (issue, notes).  The pairs
("a/b", "c") and ("a", "b/c") are distinct identities under the claimed
pair semantics, yet they format to the same key, so storing [wNew3] over
the existing wIssue3 keeps the old row and never adds the new one: the
resulting (issue, notes) set is [("a/b", "c")], not [("a", "b/c")]. -/
theorem C5_counterexample_slash_ambiguity :
    niKey wNew3 = auditKey wIssue3 ∧
    (wNew3.issue, wNew3.notes) ≠ (wIssue3.issue, wIssue3.notes) ∧
    wStore3.map (fun db' =>
        (itemIssues db' wItem.id).map (fun oi => (oi.issue, oi.notes))) =
      .ok [("a/b", "c")] := by
  have hget : Datastore._get_item "securitygroup" "us-east-1" "acct1" "web-sg" wDB3 =
      .ok (wItem, wDB3) := by rfl
  have hsrev := storeRevision_append true Config.null 11 wItem.id wDB3
  have hne : revisionsOf
      { wDB3 with
          revisions := wDB3.revisions ++
            [⟨wDB3.next_revision_id, true, Config.null, 11, none, wItem.id⟩],
          next_revision_id := wDB3.next_revision_id + 1 } wItem.id ≠ [] := by decide
  obtain ⟨lr, hlr, hstore⟩ := store_ok hget hsrev hne
  refine ⟨by decide, by decide, ?_⟩
  unfold wStore3
  rw [hstore]
  simp only [Except.map]
  refine congrArg Except.ok ?_
  rw [itemIssues_ext (store_result_issues (Datastore.storeItem wItem none Config.null
    "securitygroup") (reconcileIssues wItem.id [wNew3]
      { wDB3 with
          revisions := wDB3.revisions ++
            [⟨wDB3.next_revision_id, true, Config.null, 11, none, wItem.id⟩],
          next_revision_id := wDB3.next_revision_id + 1 })
    (fun j => if j.id == wItem.id then { j with latest_revision_id := some lr.id }
      else j)) wItem.id]
  decide

/-- Witness for C5 on the slash fixture: both hypotheses of the claim
theorem are discharged at the concrete store call. -/
theorem C5_store_issue_reconciliation_witness :
    ∃ db', Datastore.store "securitygroup" "us-east-1" "acct1" "web-sg" true Config.null
        none [wNew3] false 11 wDB3 = .ok db' ∧
      (∀ k, (∃ x ∈ itemIssues db' wItem.id, auditKey x = k) ↔
        ∃ ni ∈ [wNew3], niKey ni = k) := by
  have hget : Datastore._get_item "securitygroup" "us-east-1" "acct1" "web-sg" wDB3 =
      .ok (wItem, wDB3) := by rfl
  have hsrev := storeRevision_append true Config.null 11 wItem.id wDB3
  have hne : revisionsOf
      { wDB3 with
          revisions := wDB3.revisions ++
            [⟨wDB3.next_revision_id, true, Config.null, 11, none, wItem.id⟩],
          next_revision_id := wDB3.next_revision_id + 1 } wItem.id ≠ [] := by decide
  obtain ⟨lr, hlr, hstore⟩ := store_ok hget hsrev hne
  exact ⟨_, hstore, (C5_store_issue_reconciliation hget hstore).1⟩

/-! ### Claim C9: filtered listing semantics -/

/-- The condition under which the result-building loop keeps an item: a
truthy latest-revision pointer whose revision row exists and is active,
unless include_inactive is set. -/
def keepCond (db : DB) (inc : Bool) (i : ItemRec) (r : ItemRevisionRec) : Prop :=
  ∃ rid, i.latest_revision_id = some rid ∧ rid ≠ 0 ∧
    db.revisions.find? (fun x => x.id == rid) = some r ∧
    (r.active = true ∨ inc = true)

theorem retryLoop_ok {items its : List ItemRec} {transient : Nat → Option String} :
    ∀ (a f : Nat), (retryLoop items transient a f).1 = .ok its → its = items
  | _, 0, h => by simp [retryLoop] at h
  | a, f + 1, h => by
      rw [retryLoop] at h
      split at h
      · exact (Except.ok.inj h).symm
      · split at h
        · simp at h
        · exact retryLoop_ok (a + 1) f h

theorem get_all_unfold (tech account region name : Option String) (inc : Bool)
    (transient : Nat → Option String) (db : DB) :
    Datastore.get_all_ctype_filtered tech account region name inc transient db =
      match (retryQuery (queryItems db tech account region name) transient 1).1 with
      | .error e =>
          (.error e, (retryQuery (queryItems db tech account region name) transient 1).2)
      | .ok its =>
          (buildItemMap db inc its,
            (retryQuery (queryItems db tech account region name) transient 1).2) := rfl

theorem get_all_ok {tech account region name : Option String} {inc : Bool}
    {transient : Nat → Option String} {db : DB} {m : List (ItemRec × ItemRevisionRec)}
    (h : (Datastore.get_all_ctype_filtered tech account region name inc transient db).1 =
      .ok m) :
    buildItemMap db inc (queryItems db tech account region name) = .ok m := by
  rw [get_all_unfold] at h
  split at h
  · simp at h
  next its heq =>
    have hits : its = queryItems db tech account region name := retryLoop_ok 1 5 heq
    rw [hits] at h
    exact h

theorem buildItemMap_ok_mem {db : DB} {inc : Bool} :
    ∀ (items : List ItemRec) (m : List (ItemRec × ItemRevisionRec)),
      buildItemMap db inc items = .ok m → ∀ (i : ItemRec) (r : ItemRevisionRec),
      ((i, r) ∈ m ↔ i ∈ items ∧ keepCond db inc i r)
  | [], m, h, i, r => by
      rw [buildItemMap] at h
      rw [← Except.ok.inj h]
      simp
  | i0 :: rest, m, h, i, r => by
      rw [buildItemMap] at h
      split at h
      next hlr =>
        rw [buildItemMap_ok_mem rest m h i r, List.mem_cons]
        constructor
        · rintro ⟨hm, hc⟩; exact ⟨Or.inr hm, hc⟩
        · rintro ⟨hm | hm, hc⟩
          · exfalso
            obtain ⟨rid, hrid, _⟩ := hc
            rw [hm, hlr] at hrid
            exact Option.noConfusion hrid
          · exact ⟨hm, hc⟩
      next rid0 hlr =>
        split at h
        next h0 =>
          rw [buildItemMap_ok_mem rest m h i r, List.mem_cons]
          constructor
          · rintro ⟨hm, hc⟩; exact ⟨Or.inr hm, hc⟩
          · rintro ⟨hm | hm, hc⟩
            · exfalso
              obtain ⟨rid, hrid, hne, _⟩ := hc
              rw [hm, hlr] at hrid
              exact hne ((Option.some.inj hrid).symm.trans (by simpa using h0))
            · exact ⟨hm, hc⟩
        next h0 =>
          split at h
          · simp at h
          next most hfind =>
            split at h
            next hskip =>
              rw [buildItemMap_ok_mem rest m h i r, List.mem_cons]
              have hskip2 : most.active = false ∧ inc = false := by
                simpa using hskip
              constructor
              · rintro ⟨hm, hc⟩; exact ⟨Or.inr hm, hc⟩
              · rintro ⟨hm | hm, hc⟩
                · exfalso
                  obtain ⟨rid, hrid, hne, hf, hact⟩ := hc
                  rw [hm, hlr] at hrid
                  rw [(Option.some.inj hrid).symm] at hf
                  have hr : r = most := (Option.some.inj (hfind.symm.trans hf)).symm
                  rcases hact with hact | hact
                  · rw [hr, hskip2.1] at hact; exact Bool.false_ne_true hact
                  · rw [hskip2.2] at hact; exact Bool.false_ne_true hact
                · exact ⟨hm, hc⟩
            next hkeep =>
              split at h
              · simp at h
              next m0 hrest =>
                have hor : most.active = true ∨ inc = true := by
                  by_cases ha : most.active = true
                  · exact Or.inl ha
                  · by_cases hi : inc = true
                    · exact Or.inr hi
                    · exact absurd (by
                        simp [Bool.eq_false_iff.mpr ha, Bool.eq_false_iff.mpr hi]) hkeep
                rw [← Except.ok.inj h, List.mem_cons,
                  buildItemMap_ok_mem rest m0 hrest i r, List.mem_cons]
                constructor
                · rintro (heqp | ⟨hm, hc⟩)
                  · have hi : i = i0 := congrArg Prod.fst heqp
                    have hr : r = most := congrArg Prod.snd heqp
                    refine ⟨Or.inl hi, rid0, by rw [hi]; exact hlr, ?_, ?_, ?_⟩
                    · intro hz
                      apply h0
                      rw [hz]
                      rfl
                    · rw [hr]; exact hfind
                    · rw [hr]; exact hor
                  · exact ⟨Or.inr hm, hc⟩
                · rintro ⟨hm | hm, hc⟩
                  · left
                    obtain ⟨rid, hrid, hne, hf, hact⟩ := hc
                    rw [hm, hlr] at hrid
                    rw [(Option.some.inj hrid).symm] at hf
                    have hr : r = most := (Option.some.inj (hfind.symm.trans hf)).symm
                    rw [hm, hr]
                  · exact Or.inr ⟨hm, hc⟩

/-- C9: on a successful filtered listing, an item/revision pair is in the
result exactly when the item passes the query filters, has a truthy
latest-revision pointer, and that revision is active or include_inactive is
set; hence with include_inactive = false no returned pair carries an
inactive revision, and an item with no latest-revision pointer is skipped
by the result-building loop, never an error. -/
theorem C9_filtered_listing {tech account region name : Option String} {inc : Bool}
    {transient : Nat → Option String} {db : DB} {m : List (ItemRec × ItemRevisionRec)}
    (h : (Datastore.get_all_ctype_filtered tech account region name inc transient db).1 =
      .ok m) :
    (∀ (i : ItemRec) (r : ItemRevisionRec),
      ((i, r) ∈ m ↔ i ∈ queryItems db tech account region name ∧ keepCond db inc i r)) ∧
    (inc = false → ∀ p ∈ m, p.2.active = true) ∧
    (∀ (j : ItemRec) (rest : List ItemRec), j.latest_revision_id = none →
      buildItemMap db inc (j :: rest) = buildItemMap db inc rest) := by
  have hc := buildItemMap_ok_mem (queryItems db tech account region name) m (get_all_ok h)
  refine ⟨hc, ?_, ?_⟩
  · intro hinc p hp
    obtain ⟨i, r⟩ := p
    obtain ⟨_, rid, _, _, _, hact⟩ := (hc i r).mp hp
    rcases hact with hact | hact
    · exact hact
    · rw [hinc] at hact
      exact absurd hact Bool.false_ne_true
  · intro j rest hj
    rw [buildItemMap, hj]

/-- Fixture item for the listing claims, pointing at the stored revision. -/
def wItem9 : ItemRec := ⟨1, "us-east-1", "web-sg", none, none, none, 1, 1, some 1⟩

/-- Fixture database for the listing claims. -/
def wDB9 : DB := ⟨[wAcct], [wTech], [wItem9], [wRev], [], [], 2, 2, 1, 2, 1⟩

/-- Witness for C9: a concrete listing over the fixture succeeds and the
claim theorem applies to it. -/
theorem C9_filtered_listing_witness :
    (Datastore.get_all_ctype_filtered (some "securitygroup") none none none false
        (fun _ => none) wDB9).1 = .ok [(wItem9, wRev)] ∧
    ((wItem9, wRev) ∈ [(wItem9, wRev)] ↔
      wItem9 ∈ queryItems wDB9 (some "securitygroup") none none none ∧
        keepCond wDB9 false wItem9 wRev) := by
  have h : (Datastore.get_all_ctype_filtered (some "securitygroup") none none none false
      (fun _ => none) wDB9).1 = .ok [(wItem9, wRev)] := by decide
  exact ⟨h, (C9_filtered_listing h).1 wItem9 wRev⟩

/-! ### Claim C7: retry policy of get_all_ctype_filtered -/

theorem retryLoop_none (items : List ItemRec) (t : Nat → Option String) (a g f : Nat)
    (hf : f = g + 1) (h : t a = none) :
    retryLoop items t a f = (.ok items, []) := by
  subst hf
  rw [retryLoop, h]

theorem retryLoop_step (items : List ItemRec) (t : Nat → Option String) (a g f : Nat)
    (x : String) (hf : f = g + 1) (h : t a = some x) (h5 : ¬(a + 1 > 5)) :
    retryLoop items t a f =
      ((retryLoop items t (a + 1) g).1, 5 :: (retryLoop items t (a + 1) g).2) := by
  subst hf
  rw [retryLoop, h, if_neg h5]

theorem retryLoop_stop (items : List ItemRec) (t : Nat → Option String) (a g f : Nat)
    (x : String) (hf : f = g + 1) (h : t a = some x) (h5 : a + 1 > 5) :
    retryLoop items t a f =
      (.error (.retryFailure "Too many retries for database connections."), [5]) := by
  subst hf
  rw [retryLoop, h, if_pos h5]

theorem retryLoop_blind (items : List ItemRec) (t1 t2 : Nat → Option String)
    (h : ∀ a, (t1 a).isSome = (t2 a).isSome) :
    ∀ (f a : Nat), retryLoop items t1 a f = retryLoop items t2 a f
  | 0, _ => rfl
  | f + 1, a => by
      rw [retryLoop, retryLoop]
      have hs := h a
      cases h1 : t1 a with
      | none =>
          cases h2 : t2 a with
          | none => rfl
          | some y => rw [h1, h2] at hs; simp at hs
      | some x =>
          cases h2 : t2 a with
          | none => rw [h1, h2] at hs; simp at hs
          | some y =>
              by_cases h5 : a + 1 > 5
              · rw [if_pos h5, if_pos h5]
              · rw [if_neg h5, if_neg h5]
                rw [retryLoop_blind items t1 t2 h f (a + 1)]

/-- C7 (amended): the filtered-listing query is attempted at most 5 times,
sleeping 5 seconds after each transient failure; if attempt k (k at most 5)
reaches the database the result is the queried items after k-1 sleeps; if
all five attempts fail the call raises its own fresh generic failure, a
plain Exception whose message mentions too many retries, after five sleeps.
That failure does not wrap the last underlying error: the outcome is
invariant under any change of the underlying transient errors that
preserves which attempts fail. -/
theorem C7_retry_policy (items : List ItemRec) (transient : Nat → Option String) :
    (∀ k, 1 ≤ k → k ≤ 5 → (∀ a, 1 ≤ a → a < k → (transient a).isSome = true) →
      transient k = none →
      retryQuery items transient 1 = (.ok items, List.replicate (k - 1) 5)) ∧
    ((∀ a, 1 ≤ a → a ≤ 5 → (transient a).isSome = true) →
      retryQuery items transient 1 =
        (.error (.retryFailure "Too many retries for database connections."),
          List.replicate 5 5)) ∧
    (∀ t2 : Nat → Option String, (∀ a, (transient a).isSome = (t2 a).isSome) →
      retryQuery items transient 1 = retryQuery items t2 1) := by
  refine ⟨?_, ?_, ?_⟩
  · intro k h1 h5 hpre hk
    interval_cases k
    · exact retryLoop_none items transient 1 4 5 rfl hk
    · obtain ⟨x1, hx1⟩ := Option.isSome_iff_exists.mp (hpre 1 (by norm_num) (by norm_num))
      rw [show retryQuery items transient 1 = retryLoop items transient 1 5 from rfl,
          retryLoop_step items transient 1 4 5 x1 rfl hx1 (by norm_num),
          retryLoop_none items transient 2 3 4 rfl hk]
      rfl
    · obtain ⟨x1, hx1⟩ := Option.isSome_iff_exists.mp (hpre 1 (by norm_num) (by norm_num))
      obtain ⟨x2, hx2⟩ := Option.isSome_iff_exists.mp (hpre 2 (by norm_num) (by norm_num))
      rw [show retryQuery items transient 1 = retryLoop items transient 1 5 from rfl,
          retryLoop_step items transient 1 4 5 x1 rfl hx1 (by norm_num),
          retryLoop_step items transient 2 3 4 x2 rfl hx2 (by norm_num),
          retryLoop_none items transient 3 2 3 rfl hk]
      rfl
    · obtain ⟨x1, hx1⟩ := Option.isSome_iff_exists.mp (hpre 1 (by norm_num) (by norm_num))
      obtain ⟨x2, hx2⟩ := Option.isSome_iff_exists.mp (hpre 2 (by norm_num) (by norm_num))
      obtain ⟨x3, hx3⟩ := Option.isSome_iff_exists.mp (hpre 3 (by norm_num) (by norm_num))
      rw [show retryQuery items transient 1 = retryLoop items transient 1 5 from rfl,
          retryLoop_step items transient 1 4 5 x1 rfl hx1 (by norm_num),
          retryLoop_step items transient 2 3 4 x2 rfl hx2 (by norm_num),
          retryLoop_step items transient 3 2 3 x3 rfl hx3 (by norm_num),
          retryLoop_none items transient 4 1 2 rfl hk]
      rfl
    · obtain ⟨x1, hx1⟩ := Option.isSome_iff_exists.mp (hpre 1 (by norm_num) (by norm_num))
      obtain ⟨x2, hx2⟩ := Option.isSome_iff_exists.mp (hpre 2 (by norm_num) (by norm_num))
      obtain ⟨x3, hx3⟩ := Option.isSome_iff_exists.mp (hpre 3 (by norm_num) (by norm_num))
      obtain ⟨x4, hx4⟩ := Option.isSome_iff_exists.mp (hpre 4 (by norm_num) (by norm_num))
      rw [show retryQuery items transient 1 = retryLoop items transient 1 5 from rfl,
          retryLoop_step items transient 1 4 5 x1 rfl hx1 (by norm_num),
          retryLoop_step items transient 2 3 4 x2 rfl hx2 (by norm_num),
          retryLoop_step items transient 3 2 3 x3 rfl hx3 (by norm_num),
          retryLoop_step items transient 4 1 2 x4 rfl hx4 (by norm_num),
          retryLoop_none items transient 5 0 1 rfl hk]
      rfl
  · intro hall
    obtain ⟨x1, hx1⟩ := Option.isSome_iff_exists.mp (hall 1 (by norm_num) (by norm_num))
    obtain ⟨x2, hx2⟩ := Option.isSome_iff_exists.mp (hall 2 (by norm_num) (by norm_num))
    obtain ⟨x3, hx3⟩ := Option.isSome_iff_exists.mp (hall 3 (by norm_num) (by norm_num))
    obtain ⟨x4, hx4⟩ := Option.isSome_iff_exists.mp (hall 4 (by norm_num) (by norm_num))
    obtain ⟨x5, hx5⟩ := Option.isSome_iff_exists.mp (hall 5 (by norm_num) (by norm_num))
    rw [show retryQuery items transient 1 = retryLoop items transient 1 5 from rfl,
        retryLoop_step items transient 1 4 5 x1 rfl hx1 (by norm_num),
        retryLoop_step items transient 2 3 4 x2 rfl hx2 (by norm_num),
        retryLoop_step items transient 3 2 3 x3 rfl hx3 (by norm_num),
        retryLoop_step items transient 4 1 2 x4 rfl hx4 (by norm_num),
        retryLoop_stop items transient 5 0 1 x5 rfl hx5 (by norm_num)]
    rfl
  · intro t2 h
    exact retryLoop_blind items transient t2 h 5 1

/-- C7 counterexample: two runs whose five underlying transient errors have
entirely different messages produce the very same failure value, so the
final failure cannot wrap the last underlying error; it is a fresh generic
Exception. -/
theorem C7_counterexample_no_wrapping :
    retryQuery ([] : List ItemRec) (fun _ => some "connection timed out") 1 =
      retryQuery ([] : List ItemRec) (fun _ => some "pool exhausted") 1 ∧
    (retryQuery ([] : List ItemRec) (fun _ => some "connection timed out") 1).1 =
      .error (.retryFailure "Too many retries for database connections.") ∧
    (retryQuery ([] : List ItemRec) (fun _ => some "connection timed out") 1).2 =
      List.replicate 5 5 := ⟨rfl, rfl, rfl⟩

/-- Witness for C7: concrete schedules discharging the hypotheses of every
conjunct of the claim theorem. -/
theorem C7_retry_policy_witness :
    retryQuery ([] : List ItemRec)
        (fun a => if a = 1 then some "connection timed out" else none) 1 =
      (.ok ([] : List ItemRec), List.replicate 1 5) ∧
    retryQuery ([] : List ItemRec) (fun _ => some "connection timed out") 1 =
      (.error (.retryFailure "Too many retries for database connections."),
        List.replicate 5 5) ∧
    retryQuery ([] : List ItemRec) (fun _ => some "connection timed out") 1 =
      retryQuery ([] : List ItemRec) (fun _ => some "pool exhausted") 1 := by
  obtain ⟨hsucc, hfail, hblind⟩ :=
    C7_retry_policy ([] : List ItemRec)
      (fun a => if a = 1 then some "connection timed out" else none)
  obtain ⟨_, hfail2, hblind2⟩ :=
    C7_retry_policy ([] : List ItemRec) (fun _ => some "connection timed out")
  refine ⟨hsucc 2 (by norm_num) (by norm_num) ?_ (by simp), hfail2 ?_, hblind2 _ ?_⟩
  · intro a ha1 ha2
    have ha : a = 1 := by omega
    rw [ha]
    rfl
  · intro a _ _
    rfl
  · intro a
    rfl

/-! ### Claim C8: store_exception is best effort -/

theorem store_exception_body_eq (source : String) (location : List String)
    (exc_type exc_message stack : String) (ttl : Option Nat) (now : Nat) (db : DB) :
    store_exception_body source location exc_type exc_message stack ttl now db =
      match decorateEntry ⟨db.next_exception_id, source, now, ttl, exc_type,
          String.mk (exc_message.data.take 512), stack, none, none, none, none⟩
          location db with
      | .error e => .error e
      | .ok entry =>
          .ok { db with
                exceptions := db.exceptions ++ [entry],
                next_exception_id := db.next_exception_id + 1 } := rfl

/-- C8: store_exception never propagates a failure: when its body fails
(for any reason, including failed account or technology lookups) the store
is returned untouched, and in every case the result is either the unchanged
store or the store with exactly one row appended to the exceptions table,
every other table untouched. -/
theorem C8_store_exception_never_raises (source : String) (location : List String)
    (exc_type exc_message stack : String) (ttl : Option Nat) (now : Nat) (db : DB) :
    ((∃ e, store_exception_body source location exc_type exc_message stack ttl now db =
        .error e) →
      store_exception source location exc_type exc_message stack ttl now db = db) ∧
    (store_exception source location exc_type exc_message stack ttl now db = db ∨
      ∃ entry, store_exception source location exc_type exc_message stack ttl now db =
        { db with exceptions := db.exceptions ++ [entry],
                  next_exception_id := db.next_exception_id + 1 }) := by
  constructor
  · rintro ⟨e, he⟩
    unfold store_exception
    rw [he]
  · cases hd : store_exception_body source location exc_type exc_message stack ttl now db with
    | error e =>
        left
        unfold store_exception
        rw [hd]
    | ok db2 =>
        right
        have hres : store_exception source location exc_type exc_message stack ttl now db =
            db2 := by
          unfold store_exception
          rw [hd]
        rw [store_exception_body_eq] at hd
        cases hde : decorateEntry ⟨db.next_exception_id, source, now, ttl, exc_type,
            String.mk (exc_message.data.take 512), stack, none, none, none, none⟩
            location db with
        | error e =>
            rw [hde] at hd
            exact Except.noConfusion hd
        | ok entry =>
            rw [hde] at hd
            exact ⟨entry, by rw [hres]; exact (Except.ok.inj hd).symm⟩

/-- The empty fixture store, on which the technology lookup of a
one-element location fails. -/
def wDB8 : DB := ⟨[], [], [], [], [], [], 1, 1, 1, 1, 1⟩

/-- Witness for C8: a concrete failing call (unknown technology in the
location) leaves the store untouched. -/
theorem C8_store_exception_never_raises_witness :
    store_exception_body "secmonkey" ["sometech"] "Boom" "boom happened" "trace" none 7
        wDB8 = .error (.noResultFound "technology") ∧
    store_exception "secmonkey" ["sometech"] "Boom" "boom happened" "trace" none 7 wDB8 =
      wDB8 := by
  have hbody : store_exception_body "secmonkey" ["sometech"] "Boom" "boom happened"
      "trace" none 7 wDB8 = .error (.noResultFound "technology") := by rfl
  exact ⟨hbody,
    (C8_store_exception_never_raises "secmonkey" ["sometech"] "Boom" "boom happened"
      "trace" none 7 wDB8).1 ⟨_, hbody⟩⟩
